import Mathlib

/-!
Formal model of the pixmask image-sanitization core.

Pixel samples are modelled as real numbers (the idealization of the C++
`float` arithmetic; claims phrased "within floating-point rounding" are
settled exactly over `ℝ`).  Machine sizes are `ℕ`, the C++ `int` quality
parameter is `ℤ`.  Buffer memory (`CpuImage::data`) is modelled as a total
function `ℕ → ℝ` indexed in units of the per-channel element size (the code
validates `stride_bytes % bytes_per_channel == 0` before every access, so
every byte address it touches is an exact element slot); a null pointer is
`Option.none`.
-/

namespace Pixmask

/-! ### Thread pool: `parallel_for` chunking (src/common/thread_pool.cpp) -/

/-- One chunk of `parallel_for_impl`'s submission loop:
`while (chunk_begin < end) { chunk_end = min(end, chunk_begin + chunk_size); enqueue; chunk_begin = chunk_end; }`. -/
def chunkLoop (e cs : ℕ) (cb : ℕ) : List (ℕ × ℕ) :=
  if _h : cb < e ∧ 0 < cs then
    (cb, min e (cb + cs)) :: chunkLoop e cs (min e (cb + cs))
  else []
termination_by e - cb
decreasing_by
  omega

/-- `chunk_size = max(1, (total + target_chunks - 1) / target_chunks)` with
`target_chunks = workers * 4` (about 4x the worker count). -/
def chunkSize (b e workers : ℕ) : ℕ :=
  max 1 ((e - b + max 1 workers * 4 - 1) / (max 1 workers * 4))

/-- The list of `[chunk_begin, chunk_end)` ranges generated by
`parallel_for_impl(begin, end, chunk_fn)` for a pool with `workers` workers
(`workers = pool.size()`): inline path for `workers <= 1 || total <= workers`,
otherwise chunks of size `chunkSize`. -/
def chunkRanges (b e workers : ℕ) : List (ℕ × ℕ) :=
  if e ≤ b then []
  else if max 1 workers ≤ 1 ∨ e - b ≤ max 1 workers then [(b, e)]
  else chunkLoop e (chunkSize b e workers) b

/-- Indices visited when the submitted chunk closures run: the templated
`parallel_for` wrapper iterates `for (idx = chunk_begin; idx < chunk_end; ++idx) fn(idx)`
inside every chunk. -/
def rangesToIndices : List (ℕ × ℕ) → List ℕ
  | [] => []
  | c :: rest => List.range' c.1 (c.2 - c.1) ++ rangesToIndices rest

/-- All indices on which `fn` is invoked by `parallel_for(b, e, fn)`
(the template returns immediately when `e ≤ b`). -/
def parallelForIndices (b e workers : ℕ) : List ℕ :=
  if e ≤ b then []
  else rangesToIndices (chunkRanges b e workers)

/-! ### Bit-depth quantizer (src/cpu/bitdepth.cpp) -/

/-- The 8x8 ordered-dither (Bayer) threshold matrix `kBayer8x8`. -/
def kBayer8x8 : List (List ℕ) :=
  [[0, 48, 12, 60, 3, 51, 15, 63],
   [32, 16, 44, 28, 35, 19, 47, 31],
   [8, 56, 4, 52, 11, 59, 7, 55],
   [40, 24, 36, 20, 43, 27, 39, 23],
   [2, 50, 14, 62, 1, 49, 13, 61],
   [34, 18, 46, 30, 33, 17, 45, 29],
   [10, 58, 6, 54, 9, 57, 5, 53],
   [42, 26, 38, 22, 41, 25, 37, 21]]

def bayerEntry (yy xx : ℕ) : ℕ := (kBayer8x8.getD yy []).getD xx 0

/-- `threshold = (kBayer8x8[y & 7][x & 7] + 0.5f) * kInvBayerScale` with
`kInvBayerScale = 1/64` (`y & 7 = y % 8`). -/
noncomputable def bayerThreshold (x y : ℕ) : ℝ :=
  ((bayerEntry (y % 8) (x % 8) : ℝ) + 0.5) * (1 / 64)

/-- `sanitize_bits`: `0` selects the default depth `6`, then the value is
clamped into `[1, 8]`. -/
def sanitize_bits (bits : ℕ) : ℕ :=
  let b0 := if bits = 0 then 6 else bits
  let b1 := if b0 < 1 then 1 else b0
  if 8 < b1 then 8 else b1

/-- `clamp01` from bitdepth.cpp. -/
noncomputable def clamp01 (v : ℝ) : ℝ :=
  if v < 0 then 0 else if 1 < v then 1 else v

/-- The per-sample body of `quantize_in_place`: clamp, scale by `levels`,
bias by `(threshold - 0.5)`, floor, clamp to `[0, levels-1]`, rescale by
`1/(levels-1)` (zero when `max_level = 0`; the code computes
`inv_levels_minus_one` once per call with the same guard). -/
noncomputable def quantize_sample (bits x y : ℕ) (v : ℝ) : ℝ :=
  let levels : ℕ := 2 ^ sanitize_bits bits
  let max_level : ℤ := (levels : ℤ) - 1
  let biased := clamp01 v * (levels : ℝ) + bayerThreshold x y - 1 / 2
  let q0 : ℤ := ⌊biased⌋
  let q : ℤ := if q0 < 0 then 0 else if max_level < q0 then max_level else q0
  if 0 < max_level then (q : ℝ) * (1 / ((max_level : ℤ) : ℝ)) else 0

/-- `quantize_in_place(data, width, height, channels, bits)`: rewrites the
sample at flat index `(y*width + x)*channels + c` for every `y < height`,
`x < width`, `c < channels` (exactly the indices below
`width*height*channels`); the null-pointer guard has no counterpart in the
list model. -/
noncomputable def quantize_in_place (data : List ℝ) (width height channels bits : ℕ) :
    List ℝ :=
  if width = 0 ∨ height = 0 ∨ channels = 0 then data
  else List.ofFn (fun i : Fin data.length =>
    if (i : ℕ) < width * height * channels then
      quantize_sample bits ((i / channels) % width) (i / (width * channels)) (data.getD i 0)
    else data.getD i 0)

/-- Internal float image (`pixmask::Image`): tightly packed samples. -/
structure Image where
  width : ℕ
  height : ℕ
  pixels : List ℝ

/-- `infer_channels` from bitdepth.cpp. -/
def infer_channels (image : Image) : ℕ :=
  if image.width = 0 ∨ image.height = 0 then 0
  else if image.pixels.isEmpty ∨ image.pixels.length % (image.width * image.height) ≠ 0 then 0
  else image.pixels.length / (image.width * image.height)

/-- `pixmask::quantize_bitdepth(Image&, bits)`. -/
noncomputable def quantize_bitdepth (image : Image) (bits : ℕ) : Image :=
  if infer_channels image = 0 then image
  else { image with
         pixels := quantize_in_place image.pixels image.width image.height
                     (infer_channels image) bits }

/-! ### Cubic resampler (src/cpu/dct8x8.cpp, second translation unit) -/

/-- `std::clamp(v, lo, hi)`. -/
noncomputable def stdClamp (v lo hi : ℝ) : ℝ :=
  if v < lo then lo else if hi < v then hi else v

/-- `sanitize_pixel` from sanitize.cpp: `std::clamp(value, 0.0f, 1.0f)`. -/
noncomputable def sanitize_pixel (v : ℝ) : ℝ := stdClamp v 0 1

/-- `std::llround`: round half away from zero. -/
noncomputable def llround (x : ℝ) : ℤ :=
  if x < 0 then -⌊-x + 1 / 2⌋ else ⌊x + 1 / 2⌋

/-- `kCubicParameter = -0.5f` (Catmull-Rom). -/
noncomputable def kCubicParameter : ℝ := -0.5

/-- The 4-tap cubic convolution kernel `cubic_kernel`. -/
noncomputable def cubic_kernel (x : ℝ) : ℝ :=
  if |x| < 1 then
    (kCubicParameter + 2) * |x| ^ 3 - (kCubicParameter + 3) * |x| ^ 2 + 1
  else if |x| < 2 then
    kCubicParameter * |x| ^ 3 - 5 * kCubicParameter * |x| ^ 2 + 8 * kCubicParameter * |x| -
      4 * kCubicParameter
  else 0

/-- The nonnegative residue `idx % period` computed by `mirror_index`
(truncated C++ `%`, i.e. `Int.tmod`, then `+ period` once if negative). -/
def mirrorResidue (idx : ℤ) (length : ℕ) : ℤ :=
  if Int.tmod idx ((length : ℤ) * 2 - 2) < 0 then
    Int.tmod idx ((length : ℤ) * 2 - 2) + ((length : ℤ) * 2 - 2)
  else Int.tmod idx ((length : ℤ) * 2 - 2)

/-- `mirror_index(idx, length)`: reflect across both edges with period
`2*length - 2`. -/
def mirror_index (idx : ℤ) (length : ℕ) : ℕ :=
  if length = 0 then 0
  else if length = 1 then 0
  else if (length : ℤ) * 2 - 2 = 0 then 0
  else
    (if (length : ℤ) ≤ mirrorResidue idx length then
      (length : ℤ) * 2 - 2 - mirrorResidue idx length
    else mirrorResidue idx length).toNat

/-- A resampler weight-table entry (`CubicPhase`): parallel lists of source
indices and weights. -/
structure CubicPhase where
  indices : List ℕ
  weights : List ℝ

/-- The downscale branch's source-cell walk
(`while (current < end) { next = min(end, idx+1); push coverage; ... }`),
with an explicit fuel; accumulator carries `(indices, weights, weight_sum)`.
The C++ loop covers `[start, start + inv_scale)` in steps of at least one
source cell, so `src_size + 2` fuel always suffices. -/
noncomputable def downscale_loop (endv scale : ℝ) (src : ℕ) :
    ℕ → ℝ → ℤ → List ℕ × List ℝ × ℝ → List ℕ × List ℝ × ℝ
  | 0, _, _, acc => acc
  | fuel + 1, current, idx, acc =>
    if current < endv then
      downscale_loop endv scale src fuel (min endv ((idx : ℝ) + 1)) (idx + 1)
        (if 0 < min endv ((idx : ℝ) + 1) - current then
          (acc.1 ++ [mirror_index idx src],
           acc.2.1 ++ [(min endv ((idx : ℝ) + 1) - current) * scale],
           acc.2.2 + (min endv ((idx : ℝ) + 1) - current) * scale)
        else acc)
    else acc

/-- Normalize-or-fallback epilogue shared by both branches of
`build_cubic_weight_table`: divide every weight by the running sum when it is
nonzero, otherwise emit the single tap `(mirror_index(llround(pos)), 1.0)`. -/
noncomputable def finishPhase (acc : List ℕ × List ℝ × ℝ) (pos : ℝ) (src : ℕ) : CubicPhase :=
  if acc.2.2 ≠ 0 then ⟨acc.1, acc.2.1.map (fun w => w * (1 / acc.2.2))⟩
  else ⟨[mirror_index (llround pos) src], [1]⟩

/-- One destination coordinate of the downscale branch. -/
noncomputable def downscale_phase (scale inv_scale : ℝ) (src : ℕ) (i : ℕ) : CubicPhase :=
  finishPhase
    (downscale_loop ((i : ℝ) * inv_scale + inv_scale) scale src (src + 2)
      ((i : ℝ) * inv_scale) ⌊(i : ℝ) * inv_scale⌋ ([], [], 0))
    ((i : ℝ) * inv_scale) src

/-- One tap of the upscale branch (`if (weight == 0.0f) continue;`). -/
noncomputable def upscale_tap (src_pos : ℝ) (src : ℕ) (acc : List ℕ × List ℝ × ℝ)
    (idx : ℤ) : List ℕ × List ℝ × ℝ :=
  if cubic_kernel (src_pos - (idx : ℝ)) = 0 then acc
  else
    (acc.1 ++ [mirror_index idx src],
     acc.2.1 ++ [cubic_kernel (src_pos - (idx : ℝ))],
     acc.2.2 + cubic_kernel (src_pos - (idx : ℝ)))

/-- One destination coordinate of the upscale branch: 4 taps around
`src_pos = (i + 0.5) * inv_scale - 0.5`, at `base = floor(src_pos) - 1`. -/
noncomputable def upscale_phase (inv_scale : ℝ) (src : ℕ) (i : ℕ) : CubicPhase :=
  finishPhase
    ([⌊((i : ℝ) + 0.5) * inv_scale - 0.5⌋ - 1, ⌊((i : ℝ) + 0.5) * inv_scale - 0.5⌋,
      ⌊((i : ℝ) + 0.5) * inv_scale - 0.5⌋ + 1, ⌊((i : ℝ) + 0.5) * inv_scale - 0.5⌋ + 2].foldl
      (upscale_tap (((i : ℝ) + 0.5) * inv_scale - 0.5) src) ([], [], 0))
    (((i : ℝ) + 0.5) * inv_scale - 0.5) src

/-- `build_cubic_weight_table(src_size, dst_size)`: one phase per destination
index; the branch is selected once by `scale = dst/src < 1`. -/
noncomputable def build_cubic_weight_table (src_size dst_size : ℕ) : List CubicPhase :=
  if src_size = 0 ∨ dst_size = 0 then []
  else if (dst_size : ℝ) / (src_size : ℝ) < 1 then
    (List.range dst_size).map
      (downscale_phase ((dst_size : ℝ) / (src_size : ℝ)) ((src_size : ℝ) / (dst_size : ℝ))
        src_size)
  else
    (List.range dst_size).map
      (upscale_phase ((src_size : ℝ) / (dst_size : ℝ)) src_size)

/-- `compute_channels` from the resampler/DCT translation unit. -/
def compute_channels (image : Image) : ℕ :=
  if image.width = 0 ∨ image.height = 0 then 0
  else if image.pixels.length % (image.width * image.height) ≠ 0 then 0
  else image.pixels.length / (image.width * image.height)

/-- Accumulate one phase over a sampled row/column, in list order
(`accum += weight * value`). -/
noncomputable def phase_accum (phase : CubicPhase) (f : ℕ → ℝ) : ℝ :=
  ((phase.indices.zip phase.weights).map (fun p => p.2 * f p.1)).sum

/-- One output sample of `resample_cubic`: horizontal pass value
`inter(sy, x, c)` folded through the vertical phase and clamped to `[0,1]`
(only the vertical pass clamps). -/
noncomputable def resample_pixel (input : Image) (nw nh ch i : ℕ) : ℝ :=
  stdClamp
    (phase_accum (( build_cubic_weight_table input.height nh).getD (i / (nw * ch)) ⟨[], []⟩)
      (fun sy =>
        phase_accum ((build_cubic_weight_table input.width nw).getD (i % (nw * ch) / ch) ⟨[], []⟩)
          (fun si =>
            input.pixels.getD ((sy * input.width + si) * ch + (i % (nw * ch) % ch)) 0)))
    0 1

/-- `resample_cubic(input, new_width, new_height)`: degenerate requests give
an empty pixel list; an inconsistent channel count gives an empty list; the
zero-filled buffer is returned when a weight table is empty; otherwise the two
separable passes produce the output row-major as `(y*new_width + x)*ch + c`. -/
noncomputable def resample_cubic (input : Image) (new_width new_height : ℕ) : Image :=
  if new_width = 0 ∨ new_height = 0 then ⟨new_width, new_height, []⟩
  else if compute_channels input = 0 then ⟨new_width, new_height, []⟩
  else if input.width = 0 ∨ input.height = 0 then
    ⟨new_width, new_height, List.replicate (new_width * new_height * compute_channels input) 0⟩
  else if (build_cubic_weight_table input.width new_width).isEmpty ∨
      (build_cubic_weight_table input.height new_height).isEmpty then
    ⟨new_width, new_height, List.replicate (new_width * new_height * compute_channels input) 0⟩
  else
    ⟨new_width, new_height,
     List.ofFn (fun i : Fin (new_height * new_width * compute_channels input) =>
       resample_pixel input new_width new_height (compute_channels input) i)⟩

/-! ### 8x8 block transform (src/cpu/dct8x8.cpp, first translation unit).

The cosine table entry is `cos((pi/8) * u * (x + 0.5))`; the DC scale factor
is the float literal `0.3535533905932738f`, annotated `// sqrt(1/8)` in the
source, idealized here as `Real.sqrt (1/8)` (the AC factor `0.5f = sqrt(2/8)`
is exact). -/

noncomputable def dctCos (u x : ℕ) : ℝ :=
  Real.cos (Real.pi / 8 * (u : ℝ) * ((x : ℝ) + 0.5))

noncomputable def dctAlpha (u : ℕ) : ℝ :=
  if u = 0 then Real.sqrt (1 / 8) else 0.5

/-- Auxiliary cosine sum used to prove the orthogonality of the transform:
`dctG m = sum_{u < 8} cos(pi * m * u / 8)`. -/
noncomputable def dctG (m : ℤ) : ℝ :=
  ∑ u ∈ Finset.range 8, Real.cos (Real.pi * (m : ℝ) * (u : ℝ) / 8)

/-- `fdct_1d`: `out[u] = (sum_x in[x] * cos[u][x]) * alpha[u]`. -/
noncomputable def fdct_1d (v : Fin 8 → ℝ) : Fin 8 → ℝ :=
  fun u => (∑ x : Fin 8, v x * dctCos u x) * dctAlpha u

/-- `idct_1d`: `out[x] = sum_u alpha[u] * in[u] * cos[u][x]`. -/
noncomputable def idct_1d (v : Fin 8 → ℝ) : Fin 8 → ℝ :=
  fun x => ∑ u : Fin 8, dctAlpha u * v u * dctCos u x

/-- `forward_dct`: rows first (into `tmp`), then columns. -/
noncomputable def forward_dct (b : Fin 8 → Fin 8 → ℝ) : Fin 8 → Fin 8 → ℝ :=
  fun u v => fdct_1d (fun y => fdct_1d (b y) v) u

/-- `inverse_dct`: columns first (into `tmp`), then rows. -/
noncomputable def inverse_dct (b : Fin 8 → Fin 8 → ℝ) : Fin 8 → Fin 8 → ℝ :=
  fun y x => idct_1d (fun v => idct_1d (fun u => b u v) y) x

/-- Modelled from the spec: the fixed base quantization-step table
`kQuantTableQ50` is declared in `pixmask/dct_tables.h`, a header not present
under the provided sources; the spec describes it as the standard base step
table of block-transform image coding, so the standard JPEG luminance Q50
table is used.  No claim depends on its entries: at quality `>= 100`
`build_quality_table` returns the identity table before reading it and the
coefficient quantization loop is skipped entirely. -/
def kQuantTableQ50 : List ℤ :=
  [16, 11, 10, 16, 24, 40, 51, 61,
   12, 12, 14, 19, 26, 58, 60, 55,
   14, 13, 16, 24, 40, 57, 69, 56,
   14, 17, 22, 29, 51, 87, 80, 62,
   18, 22, 37, 56, 68, 109, 103, 77,
   24, 35, 55, 64, 81, 104, 113, 92,
   49, 64, 78, 87, 103, 121, 120, 101,
   72, 92, 95, 98, 112, 100, 103, 99]

/-- `build_quality_table(quality)`: `q = clamp(quality, 1, 100)`; at
`q >= 100` the all-ones identity table; otherwise the two-branch scaling
(`q < 50`: `5000/q`, else `200 - 2q`) applied to the base table, each entry
clamped to `[1, 255]`, and the DC entry forced to `1` (all quantities involved
are positive, so `ℤ` division agrees with the C++ `int` division). -/
noncomputable def build_quality_table (quality : ℤ) : ℕ → ℝ :=
  if 100 ≤ max 1 (min quality 100) then fun _ => 1
  else fun i =>
    if i = 0 then 1
    else
      ((max 1 (min ((kQuantTableQ50.getD i 0 *
          (if max 1 (min quality 100) < 50 then 5000 / max 1 (min quality 100)
           else 200 - max 1 (min quality 100) * 2) + 50) / 100) 255) : ℤ) : ℝ)

/-- `std::nearbyint` under the default rounding mode: round to nearest, ties
to even. -/
noncomputable def nearbyint (x : ℝ) : ℤ :=
  if Int.fract x < 1 / 2 then ⌊x⌋
  else if 1 / 2 < Int.fract x then ⌊x⌋ + 1
  else if Even ⌊x⌋ then ⌊x⌋ else ⌊x⌋ + 1

/-- `clamp_index(value, limit)` from dct8x8.cpp. -/
def clamp_index (value limit : ℕ) : ℕ :=
  if limit ≤ value then limit - 1 else value

/-- The 8x8 source block read for channel `c` of the tile at
`(base_x, base_y)`, with out-of-bounds rows/columns clamped to the last valid
one. -/
noncomputable def dct_block (input : Image) (ch c base_x base_y : ℕ) :
    Fin 8 → Fin 8 → ℝ :=
  fun yy xx =>
    input.pixels.getD
      ((clamp_index (base_y + yy) input.height * input.width +
          clamp_index (base_x + xx) input.width) * ch + c) 0

/-- The coefficient quantization round-trip, applied to every flat coefficient
index except `0` (the DC term), and only when `quality < 100`. -/
noncomputable def dct_quantize (quality : ℤ) (b : Fin 8 → Fin 8 → ℝ) :
    Fin 8 → Fin 8 → ℝ :=
  if quality < 100 then
    fun u v =>
      if (u : ℕ) * 8 + (v : ℕ) = 0 then b u v
      else
        (nearbyint (b u v / build_quality_table quality ((u : ℕ) * 8 + (v : ℕ))) : ℝ) *
          build_quality_table quality ((u : ℕ) * 8 + (v : ℕ))
  else fun u v => b u v

/-- The value written back at pixel `(x, y)`, channel `c`: position
`(y % 8, x % 8)` of the processed block of the tile `(x / 8, y / 8)`. -/
noncomputable def dct_tile_value (input : Image) (ch : ℕ) (quality : ℤ) (x y c : ℕ) : ℝ :=
  inverse_dct (dct_quantize quality (forward_dct (dct_block input ch c (x / 8 * 8) (y / 8 * 8))))
    ⟨y % 8, Nat.mod_lt y (by norm_num)⟩ ⟨x % 8, Nat.mod_lt x (by norm_num)⟩

/-- `dct8x8_hf_attenuate(input, quality)`: the input is returned unchanged on
degenerate dimensions or an inconsistent channel count; otherwise every
in-bounds sample (all of them, since the length is `w*h*ch` exactly) is
replaced by its tile's processed value. -/
noncomputable def dct8x8_hf_attenuate (input : Image) (quality : ℤ) : Image :=
  if input.width = 0 ∨ input.height = 0 then input
  else if compute_channels input = 0 then input
  else ⟨input.width, input.height,
    List.ofFn (fun i : Fin input.pixels.length =>
      dct_tile_value input (compute_channels input) quality
        (((i : ℕ) / compute_channels input) % input.width)
        (((i : ℕ) / compute_channels input) / input.width)
        ((i : ℕ) % compute_channels input))⟩

/-! ### Pixel buffers and format conversion (pixmask/image.h, common/pixel_ops.h).

`CpuImage::data` is a raw caller pointer; it is modelled as
`Option (ℕ → ℝ)` (`none` is a null pointer), the function giving the buffer
contents indexed in units of the per-channel element size.  `validate_image`
checks `stride_bytes % bytes_per_channel == 0` before any access, so every
address the code touches is such an element slot: the element at byte offset
`y * stride_bytes + (x * channels + c) * bytes_per_channel` is slot
`y * strideElems + x * channels + c`.  An 8-bit buffer holds its byte values
as reals. -/

inductive PixelType where
  | U8_RGB
  | U8_RGBA
  | F32_RGB
deriving DecidableEq

def pixel_channels : PixelType → ℕ
  | PixelType.U8_RGB => 3
  | PixelType.F32_RGB => 3
  | PixelType.U8_RGBA => 4

def bytes_per_channel : PixelType → ℕ
  | PixelType.U8_RGB => 1
  | PixelType.U8_RGBA => 1
  | PixelType.F32_RGB => 4

def bytes_per_pixel (t : PixelType) : ℕ := pixel_channels t * bytes_per_channel t

structure CpuImage where
  type : PixelType
  width : ℕ
  height : ℕ
  stride_bytes : ℕ
  data : Option (ℕ → ℝ)

def CpuImage.row_bytes (image : CpuImage) : ℕ := image.width * bytes_per_pixel image.type

/-- Row stride in element-size units. -/
def strideElems (image : CpuImage) : ℕ := image.stride_bytes / bytes_per_channel image.type

/-- Elements of one pixel row: `width * channels`. -/
def rowElems (image : CpuImage) : ℕ := image.width * pixel_channels image.type

def memOf (image : CpuImage) : ℕ → ℝ := image.data.getD (fun _ => 0)

/-- `validate_image` from common/pixel_ops.h. -/
def validate_image (image : CpuImage) : Bool :=
  if bytes_per_pixel image.type = 0 then false
  else if image.width = 0 ∨ image.height = 0 then false
  else if image.stride_bytes < image.row_bytes then false
  else if image.data.isNone then false
  else if bytes_per_channel image.type = 0 ∨
      image.stride_bytes % bytes_per_channel image.type ≠ 0 then false
  else true

noncomputable def kInv255 : ℝ := 1 / 255

/-- `float_to_u8`: clamp to `[0,1]`, scale by 255, `std::round` (half away
from zero — `llround` here; the argument is nonnegative after the clamp),
clamp to `[0,255]`, truncate to a byte. -/
noncomputable def float_to_u8 (value : ℝ) : ℕ :=
  (if llround (stdClamp value 0 1 * 255) < 0 then 0
   else if 255 < llround (stdClamp value 0 1 * 255) then 255
   else llround (stdClamp value 0 1 * 255)).toNat

/-- Overwrite the destination's pixel region: rows `y < height`, elements
`k < rowElems` at slot `y * strideElems + k`, leaving every other slot at its
previous contents.  Validation guarantees `rowElems ≤ strideElems`, so the
decomposition `p = y * strideElems + k` is unique and this function is the
net effect of the row-by-row write loops. -/
noncomputable def writeRows (dst : CpuImage) (f : ℕ → ℕ → ℝ) : ℕ → ℝ :=
  fun p =>
    if p / strideElems dst < dst.height ∧ p % strideElems dst < rowElems dst then
      f (p / strideElems dst) (p % strideElems dst)
    else memOf dst p

/-- `convert_image(src, dst)` from common/pixel_ops.h: validate, require equal
dimensions, then copy rows byte-for-byte (same format) or convert pixel-wise
(the element `k = x * channels + c` of a row maps between layouts through
`x = k / channels`, `c = k % channels`).  `none` models `return false`; every
failing path in the source returns before the first write. -/
noncomputable def convert_image (src dst : CpuImage) : Option (ℕ → ℝ) :=
  if ¬ validate_image src ∨ ¬ validate_image dst then none
  else if src.width ≠ dst.width ∨ src.height ≠ dst.height then none
  else if src.type = dst.type then
    some (writeRows dst (fun y k => memOf src (y * strideElems src + k)))
  else
    match src.type, dst.type with
    | PixelType.U8_RGB, PixelType.F32_RGB =>
        some (writeRows dst (fun y k => memOf src (y * strideElems src + k) * kInv255))
    | PixelType.U8_RGBA, PixelType.F32_RGB =>
        some (writeRows dst (fun y k =>
          memOf src (y * strideElems src + k / 3 * 4 + k % 3) * kInv255))
    | PixelType.F32_RGB, PixelType.U8_RGB =>
        some (writeRows dst (fun y k =>
          (float_to_u8 (memOf src (y * strideElems src + k)) : ℝ)))
    | PixelType.F32_RGB, PixelType.U8_RGBA =>
        some (writeRows dst (fun y k =>
          if k % 4 = 3 then 255
          else (float_to_u8 (memOf src (y * strideElems src + k / 4 * 3 + k % 4)) : ℝ)))
    | _, _ => none

/-! ### Fixed-weight SR network (pixmask/sr_weights.h, part_004). -/

/-- `conv_index(oc, ky, kx, ic, in_channels)` from sr_weights.h. -/
def conv_index (oc ky kx ic in_channels : ℕ) : ℕ :=
  ((oc * 3 + ky) * 3 + kx) * in_channels + ic

/-- Apply a list of sparse assignments to the all-zero weight tensor. -/
noncomputable def applyUpdates (l : List (ℕ × ℝ)) : ℕ → ℝ :=
  l.foldl (fun f p => Function.update f p.1 p.2) (fun _ => 0)

/-- `make_conv1_weights`: per input channel the five shifted taps
(center, up, down, left, right), plus the luminance helper on channel 15. -/
noncomputable def conv1Updates (ch : ℕ) : List (ℕ × ℝ) :=
  [(conv_index (ch * 5 + 0) 1 1 ch 3, 1), (conv_index (ch * 5 + 1) 0 1 ch 3, 1),
   (conv_index (ch * 5 + 2) 2 1 ch 3, 1), (conv_index (ch * 5 + 3) 1 0 ch 3, 1),
   (conv_index (ch * 5 + 4) 1 2 ch 3, 1)]

noncomputable def kConv1Weights : ℕ → ℝ :=
  applyUpdates (conv1Updates 0 ++ conv1Updates 1 ++ conv1Updates 2 ++
    [(conv_index 15 1 1 0 3, 1 / 3), (conv_index 15 1 1 1 3, 1 / 3),
     (conv_index 15 1 1 2 3, 1 / 3)])

/-- `make_conv2_weights`: the identity over the 16 feature channels. -/
noncomputable def kConv2Weights : ℕ → ℝ :=
  applyUpdates ((List.range 16).map (fun ch => (conv_index ch 1 1 ch 16, (1 : ℝ))))

def strongPair (orient : ℕ) : List ℕ := [[1, 3], [1, 4], [2, 3], [2, 4]].getD orient []

def weakPair (orient : ℕ) : List ℕ := [[2, 4], [2, 3], [1, 4], [1, 3]].getD orient []

/-- `make_conv3_weights`: per color channel and orientation, the center tap
`1.2`, the two strong neighbors `-0.1`, the two weak neighbors `-0.05` and the
luminance blend `0.05`. -/
noncomputable def conv3Updates (ch orient : ℕ) : List (ℕ × ℝ) :=
  [(conv_index (ch * 4 + orient) 1 1 (ch * 5) 16, 1.2)] ++
  ((strongPair orient).map
    (fun j => (conv_index (ch * 4 + orient) 1 1 (ch * 5 + j) 16, (-0.1 : ℝ)))) ++
  ((weakPair orient).map
    (fun j => (conv_index (ch * 4 + orient) 1 1 (ch * 5 + j) 16, (-0.05 : ℝ)))) ++
  [(conv_index (ch * 4 + orient) 1 1 15 16, 0.05)]

noncomputable def kConv3Weights : ℕ → ℝ :=
  applyUpdates ((List.range 3).foldr (fun ch acc =>
    (List.range 4).foldr (fun orient acc2 => conv3Updates ch orient ++ acc2) acc) [])

noncomputable def kConvBiasZero : ℕ → ℝ := fun _ => 0

/-- The SR translation unit's own `mirror_index` (part_004): identical
arithmetic to the resampler's, with the `length <= 1` cases collapsed. -/
def sr_mirror_index (idx : ℤ) (length : ℕ) : ℕ :=
  if length ≤ 1 then 0
  else
    (if (length : ℤ) ≤ mirrorResidue idx length then
      (length : ℤ) * 2 - 2 - mirrorResidue idx length
    else mirrorResidue idx length).toNat

/-- One output value of `convolve3x3` at `(x, y)`, output channel `oc`. -/
noncomputable def convPixel (input : List ℝ) (width height in_channels : ℕ)
    (weights bias : ℕ → ℝ) (relu : Bool) (x y oc : ℕ) : ℝ :=
  if relu ∧ (bias oc + ∑ ky ∈ Finset.range 3, ∑ kx ∈ Finset.range 3,
      ∑ ic ∈ Finset.range in_channels,
        weights (conv_index oc ky kx ic in_channels) *
          input.getD (sr_mirror_index ((y : ℤ) + ky - 1) height * (width * in_channels) +
            sr_mirror_index ((x : ℤ) + kx - 1) width * in_channels + ic) 0) < 0 then 0
  else bias oc + ∑ ky ∈ Finset.range 3, ∑ kx ∈ Finset.range 3,
      ∑ ic ∈ Finset.range in_channels,
        weights (conv_index oc ky kx ic in_channels) *
          input.getD (sr_mirror_index ((y : ℤ) + ky - 1) height * (width * in_channels) +
            sr_mirror_index ((x : ℤ) + kx - 1) width * in_channels + ic) 0

/-- `convolve3x3`: mirror-padded 3x3 convolution over a packed
`(y * width + x) * channels + c` float buffer; optional ReLU. -/
noncomputable def convolve3x3 (input : List ℝ) (width height in_channels out_channels : ℕ)
    (weights bias : ℕ → ℝ) (relu : Bool) : List ℝ :=
  List.ofFn (fun i : Fin (height * width * out_channels) =>
    convPixel input width height in_channels weights bias relu
      ((i : ℕ) % (width * out_channels) / out_channels)
      ((i : ℕ) / (width * out_channels))
      ((i : ℕ) % (width * out_channels) % out_channels))

/-- One output sample of `pixel_shuffle_r2` at `(ox, oy)`, channel `c`:
sub-position `(oy % 2) * 2 + ox % 2` of channel block `c` at source pixel
`(ox / 2, oy / 2)`, clamped to `[0, 1]`. -/
noncomputable def shufflePixel (input : List ℝ) (width channels : ℕ) (ox oy c : ℕ) : ℝ :=
  stdClamp (input.getD ((oy / 2 * width + ox / 2) * (channels * 4) +
    (c * 4 + oy % 2 * 2 + ox % 2)) 0) 0 1

noncomputable def pixel_shuffle_r2 (input : List ℝ) (width height channels : ℕ) : List ℝ :=
  List.ofFn (fun j : Fin (height * 2 * (width * 2) * channels) =>
    shufflePixel input width channels
      ((j : ℕ) % (width * 2 * channels) / channels)
      ((j : ℕ) / (width * 2 * channels))
      ((j : ℕ) % (width * 2 * channels) % channels))

/-- `sr_lite_forward`: conv(3→16, ReLU), conv(16→16, ReLU), conv(16→12),
then the factor-2 pixel shuffle (the null/zero guards are unreachable from
the validated callers). -/
noncomputable def sr_lite_forward (input : List ℝ) (width height : ℕ) : List ℝ :=
  pixel_shuffle_r2
    (convolve3x3
      (convolve3x3 (convolve3x3 input width height 3 16 kConv1Weights kConvBiasZero true)
        width height 16 16 kConv2Weights kConvBiasZero true)
      width height 16 12 kConv3Weights kConvBiasZero false)
    width height 3

def sr_supports_type : PixelType → Bool
  | PixelType.U8_RGB => true
  | PixelType.U8_RGBA => true
  | PixelType.F32_RGB => true

/-- `sr_lite_refine(input, output)` (part_004): validation, the exact 2x
dimension relationship, pixel-type support (all three formats), conversion of
the input into a packed zero-initialized float buffer, the fixed-weight
forward pass into a second packed buffer, and conversion into the caller's
output.  `none` models `return false`; the caller's output is written only by
the final `convert_image`. -/
noncomputable def sr_lite_refine (input output : CpuImage) : Option (ℕ → ℝ) :=
  if ¬ validate_image input ∨ ¬ validate_image output then none
  else if input.width = 0 ∨ input.height = 0 then none
  else if output.width ≠ input.width * 2 ∨ output.height ≠ input.height * 2 then none
  else if ¬ (sr_supports_type input.type ∧ sr_supports_type output.type) then none
  else
    match convert_image input
        ⟨PixelType.F32_RGB, input.width, input.height, input.width * 3 * 4,
         some (fun _ => 0)⟩ with
    | none => none
    | some lowMem =>
        convert_image
          ⟨PixelType.F32_RGB, output.width, output.height, output.width * 3 * 4,
           some (fun p => (sr_lite_forward
             (List.ofFn (fun i : Fin (input.width * input.height * 3) => lowMem i))
             input.width input.height).getD p 0)⟩
          output

/-! ### Sanitize orchestrator (src/common/sanitize.cpp). -/

/-- `to_float_image`: validate, then convert into a fresh tightly packed
(`stride = width * 3 * sizeof(float)`) zero-initialized 3-channel float
buffer viewed as an `Image`. -/
noncomputable def to_float_image (src : CpuImage) : Option Image :=
  if ¬ validate_image src then none
  else
    match convert_image src
        ⟨PixelType.F32_RGB, src.width, src.height, src.width * 3 * 4,
         some (fun _ => 0)⟩ with
    | none => none
    | some m =>
        some ⟨src.width, src.height,
          List.ofFn (fun i : Fin (src.width * src.height * 3) => m i)⟩

/-- `from_float_image`: dimension and non-emptiness checks, then a
`convert_image` from the packed float view of `src` into `dst`. -/
noncomputable def from_float_image (src : Image) (dst : CpuImage) : Option (ℕ → ℝ) :=
  if src.width ≠ dst.width ∨ src.height ≠ dst.height then none
  else if src.pixels.isEmpty then none
  else
    convert_image
      ⟨PixelType.F32_RGB, src.width, src.height, src.width * 3 * 4,
       some (fun p => src.pixels.getD p 0)⟩ dst

/-- `scaled_dimension(value, scale)`: `llround`, floored at 1. -/
noncomputable def scaled_dimension (value : ℕ) (scale : ℝ) : ℕ :=
  if 0 < (llround ((value : ℝ) * scale)).toNat then (llround ((value : ℝ) * scale)).toNat
  else 1

/-- The `supported_type` lambda inside `sanitize`: only 3-channel formats. -/
def supported_type : PixelType → Bool
  | PixelType.U8_RGB => true
  | PixelType.F32_RGB => true
  | PixelType.U8_RGBA => false

/-- `low_res` after the in-place 6-bit quantization
(steps 3-4: downscale by 0.25 per axis, then `quantize_bitdepth(low_res, 6)`). -/
noncomputable def sanLowRes (working : Image) : Image :=
  quantize_bitdepth
    (resample_cubic working (scaled_dimension working.width 0.25)
      (scaled_dimension working.height 0.25)) 6

/-- `filtered` as produced by step 5: `dct8x8_hf_attenuate(low_res, 60)`. -/
noncomputable def sanFiltered (working : Image) : Image :=
  dct8x8_hf_attenuate (sanLowRes working) 60

/-- `filtered` after the step-6 blend `clamp(0.4*filtered + 0.6*low_res)`
written back over `filtered` (index-wise over `filtered`'s samples). -/
noncomputable def sanBlend (working : Image) : Image :=
  ⟨(sanFiltered working).width, (sanFiltered working).height,
   List.ofFn (fun i : Fin (sanFiltered working).pixels.length =>
     sanitize_pixel (0.4 * (sanFiltered working).pixels.getD i 0 +
       0.6 * (sanLowRes working).pixels.getD i 0))⟩

/-- Path A (step 7): cubic upscale of the blended low-resolution image back
to the output resolution. -/
noncomputable def sanUpscaled (working : Image) (W H : ℕ) : Image :=
  resample_cubic (sanBlend working) W H

/-- The half-resolution input of path B (step 8). -/
noncomputable def sanSrInput (working : Image) (W H : ℕ) : Image :=
  resample_cubic (sanBlend working) (W / 2) (H / 2)

/-- The packed float view of `sanSrInput` handed to `sr_lite_refine`. -/
noncomputable def sanSrInView (working : Image) (W H : ℕ) : CpuImage :=
  ⟨PixelType.F32_RGB, W / 2, H / 2, W / 2 * 3 * 4,
   some (fun p => (sanSrInput working W H).pixels.getD p 0)⟩

/-- The zero-initialized full-resolution buffer `sr_output` viewed as a
`CpuImage`. -/
noncomputable def sanSrOutView (W H : ℕ) : CpuImage :=
  ⟨PixelType.F32_RGB, W, H, W * 3 * 4, some (fun _ => 0)⟩

/-- The contents of `sr_output` after `sr_lite_refine` (path B). -/
noncomputable def sanSrMem (working : Image) (W H : ℕ) : Option (ℕ → ℝ) :=
  sr_lite_refine (sanSrInView working W H) (sanSrOutView W H)

/-- Step 9: the final float image
`clamp(0.15*srOut + 0.35*upscaled + (1 - 0.15 - 0.35)*working)` written over
`sr_output` and moved into `final_image`. -/
noncomputable def sanFinal (working : Image) (W H : ℕ) (srm : ℕ → ℝ) : Image :=
  ⟨W, H, List.ofFn (fun i : Fin (W * H * 3) =>
    sanitize_pixel (0.15 * srm i + 0.35 * (sanUpscaled working W H).pixels.getD i 0 +
      (1 - 0.15 - 0.35) * working.pixels.getD i 0))⟩

/-- The final float image as a function of the input buffer alone (given the
output dimensions): what `sanitize` hands to the output-format conversion on
the success path. -/
noncomputable def sanFinalOf (input : CpuImage) (W H : ℕ) : Image :=
  match to_float_image input with
  | none => ⟨0, 0, []⟩
  | some working => sanFinal working W H ((sanSrMem working W H).getD (fun _ => 0))

/-- The value the output-format conversion stores for row `y`, row element
`k` (`k = x * 3 + c`), when converting the packed float image `img` into a
buffer of type `t` (RGBA is not reachable from `sanitize`). -/
noncomputable def convertedSample (t : PixelType) (img : Image) (y k : ℕ) : ℝ :=
  match t with
  | PixelType.F32_RGB => img.pixels.getD (y * (img.width * 3) + k) 0
  | PixelType.U8_RGB => (float_to_u8 (img.pixels.getD (y * (img.width * 3) + k) 0) : ℝ)
  | PixelType.U8_RGBA => 0

/-- `sanitize(input, output)`: the boolean result together with the output
buffer's memory after the call (unchanged on every failing path: the source
writes to `output` only through the final `from_float_image`). -/
noncomputable def sanitize (input output : CpuImage) : Bool × (ℕ → ℝ) :=
  if ¬ validate_image input ∨ ¬ validate_image output then (false, memOf output)
  else if ¬ (supported_type input.type ∧ supported_type output.type) then
    (false, memOf output)
  else if input.width = 0 ∨ input.height = 0 then (false, memOf output)
  else if input.width ≠ output.width ∨ input.height ≠ output.height then
    (false, memOf output)
  else if output.width % 2 ≠ 0 ∨ output.height % 2 ≠ 0 then (false, memOf output)
  else
    match to_float_image input with
    | none => (false, memOf output)
    | some working =>
      if (resample_cubic working (scaled_dimension working.width 0.25)
          (scaled_dimension working.height 0.25)).pixels.isEmpty then (false, memOf output)
      else if (sanFiltered working).pixels.isEmpty then (false, memOf output)
      else if (sanUpscaled working output.width output.height).pixels.isEmpty then
        (false, memOf output)
      else if output.width / 2 = 0 ∨ output.height / 2 = 0 then (false, memOf output)
      else if (sanSrInput working output.width output.height).pixels.isEmpty then
        (false, memOf output)
      else
        match sanSrMem working output.width output.height with
        | none => (false, memOf output)
        | some srm =>
          match from_float_image (sanFinal working output.width output.height srm) output with
          | none => (false, memOf output)
          | some m => (true, m)

end Pixmask

namespace Pixmask

theorem chunkLoop_indices (e cs : ℕ) (hcs : 0 < cs) :
    ∀ cb, rangesToIndices (chunkLoop e cs cb) = List.range' cb (e - cb) := by
  intro cb
  induction cb using chunkLoop.induct e cs with
  | case1 cb h ih =>
    rw [chunkLoop, dif_pos h, rangesToIndices, ih]
    have hle : cb ≤ min e (cb + cs) := by omega
    calc List.range' cb (min e (cb + cs) - cb) ++ List.range' (min e (cb + cs)) (e - min e (cb + cs))
        = List.range' cb (min e (cb + cs) - cb) ++
            List.range' (cb + (min e (cb + cs) - cb)) (e - min e (cb + cs)) := by
          rw [Nat.add_sub_cancel' hle]
      _ = List.range' cb (e - cb) := by rw [List.range'_append_1]; congr 1; omega
  | case2 cb h =>
    rw [chunkLoop, dif_neg h, rangesToIndices]
    have h0 : e - cb = 0 := by
      rcases Decidable.em (cb < e) with hlt | hge
      · exact absurd ⟨hlt, hcs⟩ h
      · omega
    rw [h0]; rfl

theorem chunkLoop_bounds (e cs : ℕ) :
    ∀ cb, ∀ c ∈ chunkLoop e cs cb, c.1 < c.2 ∧ c.2 ≤ e := by
  intro cb
  induction cb using chunkLoop.induct e cs with
  | case1 cb h ih =>
    rw [chunkLoop, dif_pos h]
    intro c hc
    rcases List.mem_cons.mp hc with rfl | hc
    · constructor
      · simp only []
        omega
      · simp only []
        omega
    · exact ih c hc
  | case2 cb h =>
    rw [chunkLoop, dif_neg h]
    intro c hc
    exact absurd hc (List.not_mem_nil c)

theorem chunkLoop_ge (e cs lo : ℕ) :
    ∀ cb, lo ≤ cb → ∀ c ∈ chunkLoop e cs cb, lo ≤ c.1 := by
  intro cb
  induction cb using chunkLoop.induct e cs with
  | case1 cb h ih =>
    intro hb c hc
    rw [chunkLoop, dif_pos h] at hc
    rcases List.mem_cons.mp hc with rfl | hc
    · exact hb
    · exact ih (by omega) c hc
  | case2 cb h =>
    intro hb c hc
    rw [chunkLoop, dif_neg h] at hc
    exact absurd hc (List.not_mem_nil c)

/-- C9 helper: every chunk produced by `chunkRanges` is a nonempty subrange of `[b, e)`. -/
theorem chunkRanges_bounds (b e workers : ℕ) :
    ∀ c ∈ chunkRanges b e workers, b ≤ c.1 ∧ c.1 < c.2 ∧ c.2 ≤ e := by
  intro c hc
  unfold chunkRanges at hc
  by_cases hbe : e ≤ b
  · rw [if_pos hbe] at hc
    exact absurd hc (List.not_mem_nil c)
  · rw [if_neg hbe] at hc
    by_cases hinl : max 1 workers ≤ 1 ∨ e - b ≤ max 1 workers
    · rw [if_pos hinl] at hc
      rcases List.mem_singleton.mp hc with rfl
      exact ⟨Nat.le_refl b, by omega, Nat.le_refl e⟩
    · rw [if_neg hinl] at hc
      exact ⟨chunkLoop_ge e _ b b (Nat.le_refl b) c hc, chunkLoop_bounds e _ b c hc⟩

/-- C9: `parallel_for` over `[0, N)` visits exactly the indices `0, 1, ..., N-1`,
once each and in order, for every worker count: the generated chunks are
contiguous, pairwise disjoint and cover exactly the range, in both the inline
path and the chunked path, and the per-index function is invoked exactly once
per index before the call returns (execution of all submitted chunks completes
before `pool.wait()` returns; the model performs every invocation inside
`parallelForIndices`). -/
theorem parallel_for_visits_each_index_once (N workers : ℕ) :
    parallelForIndices 0 N workers = List.range N ∧
    (∀ c ∈ chunkRanges 0 N workers, c.1 < c.2 ∧ c.2 ≤ N) := by
  constructor
  · unfold parallelForIndices
    by_cases hN : N ≤ 0
    · rw [if_pos hN]
      have : N = 0 := Nat.le_zero.mp hN
      rw [this, List.range_zero]
    · rw [if_neg hN]
      unfold chunkRanges
      rw [if_neg hN]
      by_cases hinl : max 1 workers ≤ 1 ∨ N - 0 ≤ max 1 workers
      · rw [if_pos hinl]
        show List.range' 0 (N - 0) ++ rangesToIndices [] = List.range N
        rw [rangesToIndices, List.append_nil, Nat.sub_zero, List.range_eq_range']
      · have hpos : 0 < chunkSize 0 N workers := by
          unfold chunkSize
          exact Nat.lt_of_lt_of_le Nat.zero_lt_one (Nat.le_max_left _ _)
        rw [if_neg hinl, chunkLoop_indices N (chunkSize 0 N workers) hpos 0,
          Nat.sub_zero, List.range_eq_range']
  · intro c hc
    exact (chunkRanges_bounds 0 N workers c hc).2

theorem sanitize_bits_of_le (b : ℕ) (h1 : 1 ≤ b) (h8 : b ≤ 8) : sanitize_bits b = b := by
  simp only [sanitize_bits]
  split_ifs <;> omega

theorem bayerThreshold_mod (x y : ℕ) :
    bayerThreshold x y = bayerThreshold (x % 8) (y % 8) := by
  unfold bayerThreshold
  have hx : x % 8 % 8 = x % 8 := by omega
  have hy : y % 8 % 8 = y % 8 := by omega
  rw [hx, hy]

theorem quantize_sample_levels (bits x y : ℕ) (v : ℝ) (hb1 : 1 ≤ bits) (hb8 : bits ≤ 8) :
    ∃ k : ℕ, k ≤ 2 ^ bits - 1 ∧
      quantize_sample bits x y v = (k : ℝ) / ((2 : ℝ) ^ bits - 1) := by
  have hsb : sanitize_bits bits = bits := sanitize_bits_of_le bits hb1 hb8
  have h2 : 2 ≤ 2 ^ bits := by
    calc 2 = 2 ^ 1 := (pow_one 2).symm
    _ ≤ 2 ^ bits := Nat.pow_le_pow_right (by norm_num) hb1
  simp only [quantize_sample, hsb]
  set B : ℕ := 2 ^ bits with hB
  have h2z : (2 : ℤ) ≤ (B : ℤ) := by exact_mod_cast h2
  set q0 : ℤ := ⌊clamp01 v * (B : ℝ) + bayerThreshold x y - 1 / 2⌋ with hq0
  set q : ℤ := if q0 < 0 then 0 else if (B : ℤ) - 1 < q0 then (B : ℤ) - 1 else q0 with hq
  have hq_nonneg : 0 ≤ q := by rw [hq]; split_ifs <;> omega
  have hq_le : q ≤ (B : ℤ) - 1 := by rw [hq]; split_ifs <;> omega
  have hpos : (0 : ℤ) < (B : ℤ) - 1 := by omega
  rw [if_pos hpos]
  refine ⟨q.toNat, by omega, ?_⟩
  have hqq : ((q.toNat : ℕ) : ℝ) = (q : ℝ) := by exact_mod_cast Int.toNat_of_nonneg hq_nonneg
  have hden : (((B : ℤ) - 1 : ℤ) : ℝ) = (2 : ℝ) ^ bits - 1 := by
    push_cast [hB]
    ring
  rw [mul_one_div, hden, hqq]

/-- C4: for every bit depth in `[1, 8]`, every channel count and every input
array with values in `[0, 1]`, after `quantize_in_place` every sample equals
`k / (2^b - 1)` for some integer `k ≤ 2^b - 1`, and the ordered-dither
threshold at pixel `(x, y)` is a function of `(x mod 8, y mod 8)` only (it
takes neither the channel, nor the sample value, nor the rest of the image). -/
theorem quantize_bitdepth_levels (bits w h ch : ℕ) (data : List ℝ)
    (hb1 : 1 ≤ bits) (hb8 : bits ≤ 8) (hlen : data.length = w * h * ch)
    (_hvals : ∀ v ∈ data, 0 ≤ v ∧ v ≤ 1) :
    (∀ v ∈ quantize_in_place data w h ch bits,
        ∃ k : ℕ, k ≤ 2 ^ bits - 1 ∧ v = (k : ℝ) / ((2 : ℝ) ^ bits - 1)) ∧
    (∀ x y : ℕ, bayerThreshold x y = bayerThreshold (x % 8) (y % 8)) := by
  refine ⟨?_, bayerThreshold_mod⟩
  intro v hv
  unfold quantize_in_place at hv
  by_cases hg : w = 0 ∨ h = 0 ∨ ch = 0
  · rw [if_pos hg] at hv
    have hz : data.length = 0 := by
      rw [hlen]
      rcases hg with h0 | h0 | h0 <;> simp [h0]
    rw [List.eq_nil_of_length_eq_zero hz] at hv
    exact absurd hv (List.not_mem_nil v)
  · rw [if_neg hg] at hv
    rcases Set.mem_range.mp ((List.mem_ofFn _ v).mp hv) with ⟨i, hi⟩
    have hilt : (i : ℕ) < w * h * ch := hlen ▸ i.isLt
    rw [if_pos hilt] at hi
    rcases quantize_sample_levels bits ((i / ch) % w) ((i : ℕ) / (w * ch))
        (data.getD i 0) hb1 hb8 with ⟨k, hk, hkeq⟩
    exact ⟨k, hk, hi ▸ hkeq⟩

theorem c4_bitdepth_witness :
    ((1 : ℕ) ≤ 1 ∧ (1 : ℕ) ≤ 8 ∧ [(1 : ℝ) / 2].length = 1 * 1 * 1) ∧
    (∀ v ∈ quantize_in_place [(1 : ℝ) / 2] 1 1 1 1,
        ∃ k : ℕ, k ≤ 2 ^ 1 - 1 ∧ v = (k : ℝ) / ((2 : ℝ) ^ 1 - 1)) :=
  ⟨⟨le_refl 1, by norm_num, by simp⟩,
   (quantize_bitdepth_levels 1 1 1 1 [(1 : ℝ) / 2] (le_refl 1) (by norm_num) (by simp)
      (by
        intro v hv
        rw [List.mem_singleton] at hv
        subst hv
        constructor <;> norm_num)).1⟩

theorem quantize_sample_congr (b1 b2 x y : ℕ) (v : ℝ)
    (h : sanitize_bits b1 = sanitize_bits b2) :
    quantize_sample b1 x y v = quantize_sample b2 x y v := by
  unfold quantize_sample
  rw [h]

theorem quantize_sample_bits_zero :
    quantize_sample 0 0 0 ((1 : ℝ) / 2) = 31 / 63 := by
  have hsb : sanitize_bits 0 = 6 := by decide
  have hth : bayerThreshold 0 0 = 1 / 128 := by
    unfold bayerThreshold
    norm_num [bayerEntry, kBayer8x8]
  have hcl : clamp01 ((1 : ℝ) / 2) = 1 / 2 := by
    unfold clamp01
    norm_num
  simp only [quantize_sample, hsb, hth, hcl]
  have hfl : ⌊(1 : ℝ) / 2 * ((2 ^ 6 : ℕ) : ℝ) + 1 / 128 - 1 / 2⌋ = 31 := by
    apply Int.floor_eq_iff.mpr
    constructor <;> norm_num
  rw [hfl]
  norm_num

theorem quantize_sample_bits_one :
    quantize_sample 1 0 0 ((1 : ℝ) / 2) = 0 := by
  have hsb : sanitize_bits 1 = 1 := by decide
  have hth : bayerThreshold 0 0 = 1 / 128 := by
    unfold bayerThreshold
    norm_num [bayerEntry, kBayer8x8]
  have hcl : clamp01 ((1 : ℝ) / 2) = 1 / 2 := by
    unfold clamp01
    norm_num
  simp only [quantize_sample, hsb, hth, hcl]
  have hfl : ⌊(1 : ℝ) / 2 * ((2 ^ 1 : ℕ) : ℝ) + 1 / 128 - 1 / 2⌋ = 0 := by
    apply Int.floor_eq_iff.mpr
    constructor <;> norm_num
  rw [hfl]
  norm_num

theorem quantize_in_place_single (bits : ℕ) :
    quantize_in_place [(1 : ℝ) / 2] 1 1 1 bits = [quantize_sample bits 0 0 ((1 : ℝ) / 2)] := by
  unfold quantize_in_place
  rw [if_neg (by norm_num)]
  simp [List.ofFn_succ]

/-- C5 counterexample: at `bits = 0` the quantizer does not behave like
`bits` clamped into `[1, 8]` (which would be `1`): on the single-sample image
`[0.5]` the two calls disagree (`31/63` versus `0`). -/
theorem quantize_bits_zero_not_clamped :
    quantize_in_place [(1 : ℝ) / 2] 1 1 1 0 ≠ quantize_in_place [(1 : ℝ) / 2] 1 1 1 1 := by
  rw [quantize_in_place_single 0, quantize_in_place_single 1,
    quantize_sample_bits_zero, quantize_sample_bits_one]
  intro hcontra
  have : (31 : ℝ) / 63 = 0 := List.head_eq_of_cons_eq hcontra
  norm_num at this

/-- C5 (amended): `quantize_in_place` behaves exactly as it does for the
sanitized bit depth, which is `6` (the pipeline default) when `bits = 0` and
`min bits 8` (i.e. `bits` clamped into `[1, 8]`) when `bits ≥ 1`; the
effective number of levels is `2 ^` that value, which always lies in `[1, 8]`. -/
theorem quantize_effective_bits (data : List ℝ) (w h ch bits : ℕ) :
    (1 ≤ (if bits = 0 then 6 else min bits 8) ∧ (if bits = 0 then 6 else min bits 8) ≤ 8) ∧
    quantize_in_place data w h ch bits
      = quantize_in_place data w h ch (if bits = 0 then 6 else min bits 8) := by
  have hsb : sanitize_bits bits = sanitize_bits (if bits = 0 then 6 else min bits 8) := by
    simp only [sanitize_bits]
    split_ifs <;> omega
  constructor
  · constructor <;> (split_ifs <;> omega)
  · unfold quantize_in_place
    by_cases hg : w = 0 ∨ h = 0 ∨ ch = 0
    · rw [if_pos hg, if_pos hg]
    · rw [if_neg hg, if_neg hg]
      congr 1
      funext i
      by_cases hlt : (i : ℕ) < w * h * ch
      · rw [if_pos hlt, if_pos hlt,
          quantize_sample_congr bits (if bits = 0 then 6 else min bits 8) _ _ _ hsb]
      · rw [if_neg hlt, if_neg hlt]

theorem int_neg_tmod (a b : ℤ) : (-a).tmod b = -(a.tmod b) := by
  rw [Int.tmod_def, Int.tmod_def, Int.neg_tdiv]
  ring

theorem mirrorResidue_bounds (idx : ℤ) (length : ℕ) (hlen : 2 ≤ length) :
    0 ≤ mirrorResidue idx length ∧ mirrorResidue idx length < (length : ℤ) * 2 - 2 := by
  have hper : (0 : ℤ) < (length : ℤ) * 2 - 2 := by omega
  unfold mirrorResidue
  rcases le_or_lt 0 idx with hidx | hidx
  · have heq : Int.tmod idx ((length : ℤ) * 2 - 2) = idx % ((length : ℤ) * 2 - 2) :=
      Int.tmod_eq_emod hidx (by omega)
    have h0 : 0 ≤ idx % ((length : ℤ) * 2 - 2) := Int.emod_nonneg idx (by omega)
    have h1 : idx % ((length : ℤ) * 2 - 2) < (length : ℤ) * 2 - 2 :=
      Int.emod_lt_of_pos idx hper
    rw [heq, if_neg (by omega)]
    omega
  · have heq : Int.tmod idx ((length : ℤ) * 2 - 2) =
        -((-idx) % ((length : ℤ) * 2 - 2)) := by
      have h1 : (-(-idx)).tmod ((length : ℤ) * 2 - 2) = -((-idx).tmod ((length : ℤ) * 2 - 2)) :=
        int_neg_tmod (-idx) ((length : ℤ) * 2 - 2)
      rw [neg_neg] at h1
      rw [h1, Int.tmod_eq_emod (by omega) (by omega)]
    have h0 : 0 ≤ (-idx) % ((length : ℤ) * 2 - 2) := Int.emod_nonneg (-idx) (by omega)
    have h1 : (-idx) % ((length : ℤ) * 2 - 2) < (length : ℤ) * 2 - 2 :=
      Int.emod_lt_of_pos (-idx) hper
    rw [heq]
    split_ifs <;> omega

theorem mirror_index_lt (idx : ℤ) (length : ℕ) (hlen : 0 < length) :
    mirror_index idx length < length := by
  unfold mirror_index
  rcases Nat.lt_or_ge length 2 with hsmall | hbig
  · have h1 : length = 1 := by omega
    subst h1
    norm_num
  · rcases mirrorResidue_bounds idx length hbig with ⟨hr0, hr1⟩
    rw [if_neg (by omega), if_neg (by omega), if_neg (by omega)]
    split_ifs with hge <;> omega

theorem mirror_index_of_lt (idx : ℤ) (length : ℕ) (h0 : 0 ≤ idx)
    (hlt : idx < (length : ℤ)) : mirror_index idx length = idx.toNat := by
  unfold mirror_index
  rcases Nat.lt_or_ge length 2 with hsmall | hbig
  · interval_cases length
    · omega
    · simp
      omega
  · have hres : mirrorResidue idx length = idx := by
      unfold mirrorResidue
      have heq : Int.tmod idx ((length : ℤ) * 2 - 2) = idx % ((length : ℤ) * 2 - 2) :=
        Int.tmod_eq_emod h0 (by omega)
      rw [heq, Int.emod_eq_of_lt h0 (by omega), if_neg (by omega)]
    rw [if_neg (by omega), if_neg (by omega), if_neg (by omega), hres, if_neg (by omega)]

theorem list_sum_map_mul (l : List ℝ) (r : ℝ) :
    (l.map (fun w => w * r)).sum = l.sum * r := by
  induction l with
  | nil => simp
  | cons a t ih => simp [ih, add_mul]

/-- The invariant carried by both weight-table branches: the running sum is
the sum of the weights pushed so far, and every pushed index is in range. -/
def PhaseAcc (src : ℕ) (acc : List ℕ × List ℝ × ℝ) : Prop :=
  acc.2.2 = acc.2.1.sum ∧ ∀ j ∈ acc.1, j < src

theorem downscale_loop_inv (endv scale : ℝ) (src : ℕ) (hsrc : 0 < src) :
    ∀ fuel current idx acc, PhaseAcc src acc →
      PhaseAcc src (downscale_loop endv scale src fuel current idx acc) := by
  intro fuel
  induction fuel with
  | zero => intro current idx acc hacc; exact hacc
  | succ n ih =>
    intro current idx acc hacc
    rw [downscale_loop]
    split_ifs with hcur hcov
    · apply ih
      refine ⟨by simp [hacc.1], ?_⟩
      intro j hj
      rcases List.mem_append.mp hj with hj | hj
      · exact hacc.2 j hj
      · rw [List.mem_singleton.mp hj]
        exact mirror_index_lt idx src hsrc
    · exact ih _ _ _ hacc
    · exact hacc

theorem upscale_fold_inv (src_pos : ℝ) (src : ℕ) (hsrc : 0 < src) :
    ∀ taps : List ℤ, ∀ acc, PhaseAcc src acc →
      PhaseAcc src (taps.foldl (upscale_tap src_pos src) acc) := by
  intro taps
  induction taps with
  | nil => intro acc hacc; exact hacc
  | cons t rest ih =>
    intro acc hacc
    rw [List.foldl_cons]
    apply ih
    unfold upscale_tap
    split_ifs with hz
    · exact hacc
    · refine ⟨by simp [hacc.1], ?_⟩
      intro j hj
      rcases List.mem_append.mp hj with hj | hj
      · exact hacc.2 j hj
      · rw [List.mem_singleton.mp hj]
        exact mirror_index_lt t src hsrc

theorem finishPhase_spec (acc : List ℕ × List ℝ × ℝ) (pos : ℝ) (src : ℕ)
    (hsrc : 0 < src) (hacc : PhaseAcc src acc) :
    (∀ j ∈ (finishPhase acc pos src).indices, j < src) ∧
      (finishPhase acc pos src).weights ≠ [] ∧
      (finishPhase acc pos src).weights.sum = 1 := by
  unfold finishPhase
  split_ifs with hS
  · refine ⟨hacc.2, ?_, ?_⟩
    · intro hnil
      rw [List.map_eq_nil_iff] at hnil
      rw [hacc.1, hnil] at hS
      exact hS List.sum_nil
    · rw [list_sum_map_mul, ← hacc.1, mul_one_div, div_self hS]
  · refine ⟨?_, by simp, by simp⟩
    intro j hj
    rw [List.mem_singleton.mp hj]
    exact mirror_index_lt _ src hsrc

/-- C7: for positive source and destination sizes, every phase of
`build_cubic_weight_table` has only in-range source indices, a non-empty
weight list, and weights summing exactly to `1` (the degenerate fallback is
the single tap `[1]`, which also sums to `1`). -/
theorem build_cubic_weight_table_phases (src dst : ℕ) (hsrc : 0 < src) (hdst : 0 < dst) :
    ∀ phase ∈ build_cubic_weight_table src dst,
      (∀ j ∈ phase.indices, j < src) ∧ phase.weights ≠ [] ∧ phase.weights.sum = 1 := by
  intro phase hphase
  unfold build_cubic_weight_table at hphase
  rw [if_neg (by omega)] at hphase
  have hstart : PhaseAcc src ([], [], 0) := ⟨by simp, by simp⟩
  split_ifs at hphase with hscale
  · rcases List.mem_map.mp hphase with ⟨i, _, rfl⟩
    exact finishPhase_spec _ _ src hsrc
      (downscale_loop_inv _ _ src hsrc _ _ _ _ hstart)
  · rcases List.mem_map.mp hphase with ⟨i, _, rfl⟩
    exact finishPhase_spec _ _ src hsrc
      (upscale_fold_inv _ src hsrc _ _ hstart)

theorem c7_weight_table_witness :
    (0 < 3 ∧ 0 < 2) ∧
    ∀ phase ∈ build_cubic_weight_table 3 2,
      (∀ j ∈ phase.indices, j < 3) ∧ phase.weights ≠ [] ∧ phase.weights.sum = 1 :=
  ⟨⟨by decide, by decide⟩,
   build_cubic_weight_table_phases 3 2 (by decide) (by decide)⟩

theorem cubic_kernel_zero : cubic_kernel 0 = 1 := by
  unfold cubic_kernel
  norm_num

theorem cubic_kernel_one : cubic_kernel 1 = 0 := by
  unfold cubic_kernel kCubicParameter
  norm_num

theorem cubic_kernel_neg_one : cubic_kernel (-1) = 0 := by
  unfold cubic_kernel kCubicParameter
  norm_num

theorem cubic_kernel_neg_two : cubic_kernel (-2) = 0 := by
  unfold cubic_kernel kCubicParameter
  norm_num

theorem upscale_phase_identity (src i : ℕ) (hi : i < src) :
    upscale_phase 1 src i = ⟨[i], [1]⟩ := by
  have hmi : mirror_index (i : ℤ) src = i := by
    rw [mirror_index_of_lt _ _ (Int.natCast_nonneg i) (by exact_mod_cast hi)]
    omega
  unfold upscale_phase
  have hsp : ((i : ℝ) + 0.5) * 1 - 0.5 = (i : ℝ) := by ring
  rw [hsp, Int.floor_natCast,
    List.foldl_cons, List.foldl_cons, List.foldl_cons, List.foldl_cons, List.foldl_nil]
  have e1 : upscale_tap (i : ℝ) src ([], [], 0) ((i : ℤ) - 1) = ([], [], 0) := by
    unfold upscale_tap
    have hd : (i : ℝ) - (((i : ℤ) - 1 : ℤ) : ℝ) = 1 := by push_cast; ring
    rw [hd, cubic_kernel_one, if_pos rfl]
  have e2 : upscale_tap (i : ℝ) src ([], [], 0) (i : ℤ) = ([i], [1], 1) := by
    unfold upscale_tap
    have hd : (i : ℝ) - ((i : ℤ) : ℝ) = 0 := by push_cast; ring
    rw [hd, cubic_kernel_zero, if_neg (by norm_num), hmi]
    norm_num
  have e3 : upscale_tap (i : ℝ) src ([i], [1], 1) ((i : ℤ) + 1) = ([i], [1], 1) := by
    unfold upscale_tap
    have hd : (i : ℝ) - (((i : ℤ) + 1 : ℤ) : ℝ) = -1 := by push_cast; ring
    rw [hd, cubic_kernel_neg_one, if_pos rfl]
  have e4 : upscale_tap (i : ℝ) src ([i], [1], 1) ((i : ℤ) + 2) = ([i], [1], 1) := by
    unfold upscale_tap
    have hd : (i : ℝ) - (((i : ℤ) + 2 : ℤ) : ℝ) = -2 := by push_cast; ring
    rw [hd, cubic_kernel_neg_two, if_pos rfl]
  rw [e1, e2, e3, e4]
  unfold finishPhase
  rw [if_pos (by norm_num)]
  norm_num

theorem build_table_self (src : ℕ) (hsrc : 0 < src) :
    build_cubic_weight_table src src
      = (List.range src).map (fun i => CubicPhase.mk [i] [1]) := by
  unfold build_cubic_weight_table
  rw [if_neg (by omega)]
  have hs : (src : ℝ) / (src : ℝ) = 1 :=
    div_self (Nat.cast_ne_zero.mpr (by omega))
  rw [hs, if_neg (by norm_num)]
  exact List.map_congr_left fun i hi =>
    upscale_phase_identity src i (List.mem_range.mp hi)

theorem table_self_getD (src x : ℕ) (hx : x < src) :
    (build_cubic_weight_table src src).getD x ⟨[], []⟩ = ⟨[x], [1]⟩ := by
  rw [build_table_self src (by omega),
    List.getD_eq_getElem _ _ (by simpa using hx),
    List.getElem_map, List.getElem_range]

theorem phase_accum_single (x : ℕ) (f : ℕ → ℝ) :
    phase_accum ⟨[x], [1]⟩ f = f x := by
  unfold phase_accum
  simp

theorem index_decompose (i w ch : ℕ) :
    (i / (w * ch) * w + i % (w * ch) / ch) * ch + i % (w * ch) % ch = i := by
  have h1 : w * ch * (i / (w * ch)) + i % (w * ch) = i := Nat.div_add_mod i (w * ch)
  have h2 : ch * (i % (w * ch) / ch) + i % (w * ch) % ch = i % (w * ch) :=
    Nat.div_add_mod (i % (w * ch)) ch
  calc (i / (w * ch) * w + i % (w * ch) / ch) * ch + i % (w * ch) % ch
      = w * ch * (i / (w * ch)) + (ch * (i % (w * ch) / ch) + i % (w * ch) % ch) := by ring
    _ = w * ch * (i / (w * ch)) + i % (w * ch) := by rw [h2]
    _ = i := h1

theorem stdClamp_of_mem (v : ℝ) (h0 : 0 ≤ v) (h1 : v ≤ 1) : stdClamp v 0 1 = v := by
  unfold stdClamp
  rw [if_neg (by linarith), if_neg (by linarith)]

/-- C8: resampling an image to its own dimensions is the identity (exactly,
in the real-number model): at scale 1 every weight-table phase degenerates to
the single unit tap at the integer source position, and the final clamp is
the identity on samples already in `[0, 1]`. -/
theorem resample_cubic_self_identity (input : Image)
    (hch : compute_channels input ≠ 0)
    (hvals : ∀ v ∈ input.pixels, 0 ≤ v ∧ v ≤ 1) :
    resample_cubic input input.width input.height = input := by
  obtain ⟨w, h, px⟩ := input
  have hwh : ¬(w = 0 ∨ h = 0) := by
    intro hc
    exact hch (by unfold compute_channels; rw [if_pos hc])
  have hmod : px.length % (w * h) = 0 := by
    by_contra hmod
    exact hch (by unfold compute_channels; rw [if_neg hwh, if_pos hmod])
  have hchval : compute_channels ⟨w, h, px⟩ = px.length / (w * h) := by
    unfold compute_channels
    rw [if_neg hwh, if_neg (by simpa using hmod)]
  have hlen : w * h * compute_channels ⟨w, h, px⟩ = px.length := by
    rw [hchval]
    exact Nat.mul_div_cancel' (Nat.dvd_of_mod_eq_zero hmod)
  have hwpos : 0 < w := by omega
  have hhpos : 0 < h := by omega
  have hchpos : 0 < compute_channels ⟨w, h, px⟩ := Nat.pos_of_ne_zero hch
  set ch := compute_channels ⟨w, h, px⟩ with hchdef
  show resample_cubic ⟨w, h, px⟩ w h = ⟨w, h, px⟩
  unfold resample_cubic
  rw [if_neg hwh, if_neg (by rw [← hchdef]; exact hch), if_neg hwh]
  rw [if_neg (by
    rw [build_table_self w hwpos, build_table_self h hhpos]
    simp only [List.isEmpty_iff, List.map_eq_nil_iff, List.range_eq_nil]
    omega)]
  rw [← hchdef]
  have hlenfn : h * w * ch = px.length := by rw [← hlen]; ring
  refine congrArg (Image.mk w h) (List.ext_getElem (by simpa using hlenfn) ?_)
  intro i hi1 hi2
  rw [List.getElem_ofFn]
  show resample_pixel ⟨w, h, px⟩ w h ch i = px[i]
  have hilt : i < h * w * ch := by simpa using hi1
  have hwc : 0 < w * ch := Nat.mul_pos hwpos hchpos
  have hy : i / (w * ch) < h := by
    rw [Nat.div_lt_iff_lt_mul hwc]
    calc i < h * w * ch := hilt
      _ = h * (w * ch) := by ring
  have hx : i % (w * ch) / ch < w := by
    rw [Nat.div_lt_iff_lt_mul hchpos]
    exact Nat.mod_lt i hwc
  unfold resample_pixel
  show stdClamp
      (phase_accum ((build_cubic_weight_table h h).getD (i / (w * ch)) ⟨[], []⟩) _) 0 1 = px[i]
  rw [table_self_getD h (i / (w * ch)) hy, phase_accum_single]
  rw [table_self_getD w (i % (w * ch) / ch) hx, phase_accum_single]
  rw [index_decompose i w ch]
  rw [List.getD_eq_getElem px 0 (by omega)]
  exact stdClamp_of_mem _ (hvals px[i] (List.getElem_mem _)).1 (hvals px[i] (List.getElem_mem _)).2

theorem dctG_eq_re (m : ℤ) :
    dctG m = (∑ u ∈ Finset.range 8,
      Complex.exp (((Real.pi * (m : ℝ) / 8 : ℝ) : ℂ) * Complex.I) ^ u).re := by
  rw [Complex.re_sum]
  unfold dctG
  refine Finset.sum_congr rfl fun u _ => ?_
  rw [← Complex.exp_nat_mul]
  have harg : (u : ℂ) * (((Real.pi * (m : ℝ) / 8 : ℝ) : ℂ) * Complex.I)
      = ((Real.pi * (m : ℝ) / 8 * (u : ℝ) : ℝ) : ℂ) * Complex.I := by
    push_cast
    ring
  rw [harg, Complex.exp_ofReal_mul_I_re]
  congr 1
  ring

theorem dctG_of_sixteen_dvd (m : ℤ) (h : (16 : ℤ) ∣ m) : dctG m = 8 := by
  rcases h with ⟨k, rfl⟩
  unfold dctG
  have hterm : ∀ u ∈ Finset.range 8,
      Real.cos (Real.pi * ((16 * k : ℤ) : ℝ) * (u : ℝ) / 8) = 1 := by
    intro u _
    have harg : Real.pi * ((16 * k : ℤ) : ℝ) * (u : ℝ) / 8
        = ((k * u : ℤ) : ℝ) * (2 * Real.pi) := by
      push_cast
      ring
    rw [harg, Real.cos_int_mul_two_pi]
  rw [Finset.sum_congr rfl hterm]
  simp

theorem dct_zpow_eight (m : ℤ) :
    Complex.exp (((Real.pi * (m : ℝ) / 8 : ℝ) : ℂ) * Complex.I) ^ 8
      = (-1 : ℂ) ^ m := by
  rw [← Complex.exp_nat_mul]
  have harg : ((8 : ℕ) : ℂ) * (((Real.pi * (m : ℝ) / 8 : ℝ) : ℂ) * Complex.I)
      = (m : ℂ) * ((Real.pi : ℂ) * Complex.I) := by
    push_cast
    ring
  rw [harg, Complex.exp_int_mul, Complex.exp_pi_mul_I]

theorem dctG_of_odd (m : ℤ) (h : Odd m) : dctG m = 1 := by
  set z : ℂ := Complex.exp (((Real.pi * (m : ℝ) / 8 : ℝ) : ℂ) * Complex.I) with hz
  have h8 : z ^ 8 = -1 := by
    rw [hz, dct_zpow_eight, Odd.neg_one_zpow h]
  have hz1 : z ≠ 1 := by
    intro he
    rw [he, one_pow] at h8
    norm_num at h8
  have hre : z.re = Real.cos (Real.pi * (m : ℝ) / 8) := by
    rw [hz, Complex.exp_ofReal_mul_I_re]
  have him : z.im = Real.sin (Real.pi * (m : ℝ) / 8) := by
    rw [hz, Complex.exp_ofReal_mul_I_im]
  have hns : Complex.normSq (z - 1) = 2 - 2 * Real.cos (Real.pi * (m : ℝ) / 8) := by
    rw [Complex.normSq_apply, Complex.sub_re, Complex.sub_im, Complex.one_re, Complex.one_im,
      hre, him]
    have hsc := Real.sin_sq_add_cos_sq (Real.pi * (m : ℝ) / 8)
    nlinarith [hsc]
  have hns_ne : Complex.normSq (z - 1) ≠ 0 := by
    refine ne_of_gt (Complex.normSq_pos.mpr ?_)
    exact sub_ne_zero.mpr hz1
  rw [dctG_eq_re, geom_sum_eq hz1 8, h8]
  have hnum : (-1 - 1 : ℂ) = -2 := by norm_num
  rw [hnum, Complex.div_re, hns]
  have hre2 : (-2 : ℂ).re = -2 := by norm_num
  have him2 : (-2 : ℂ).im = 0 := by norm_num
  rw [hre2, him2, Complex.sub_re, Complex.one_re, hre]
  have h2ne : (2 : ℝ) - 2 * Real.cos (Real.pi * (m : ℝ) / 8) ≠ 0 := by
    rw [← hns]
    exact hns_ne
  rw [zero_mul, zero_div, add_zero, div_eq_one_iff_eq h2ne]
  ring

theorem dctG_of_even_not_dvd (m : ℤ) (he : Even m) (hnd : ¬(16 : ℤ) ∣ m) : dctG m = 0 := by
  set z : ℂ := Complex.exp (((Real.pi * (m : ℝ) / 8 : ℝ) : ℂ) * Complex.I) with hz
  have h8 : z ^ 8 = 1 := by
    rw [hz, dct_zpow_eight, Even.neg_one_zpow he]
  have hz1 : z ≠ 1 := by
    intro heq
    rcases Complex.exp_eq_one_iff.mp (hz ▸ heq) with ⟨n, hn⟩
    have hn2 : ((Real.pi * (m : ℝ) / 8 : ℝ) : ℂ) * Complex.I
        = (((n : ℝ) * (2 * Real.pi) : ℝ) : ℂ) * Complex.I := by
      rw [hn]
      push_cast
      ring
    have hre : (Real.pi * (m : ℝ) / 8 : ℝ) = (n : ℝ) * (2 * Real.pi) := by
      have := mul_right_cancel₀ Complex.I_ne_zero hn2
      exact_mod_cast this
    have hmn : (m : ℝ) = 16 * (n : ℝ) := by
      have hpi := Real.pi_ne_zero
      field_simp at hre
      have h2 : Real.pi * (m : ℝ) = Real.pi * (16 * (n : ℝ)) := by linear_combination hre
      exact mul_left_cancel₀ hpi h2
    have : m = 16 * n := by exact_mod_cast hmn
    exact hnd ⟨n, this⟩
  rw [dctG_eq_re, geom_sum_eq hz1 8, h8]
  norm_num

theorem dctG_peel (m : ℤ) :
    dctG m = (∑ u ∈ Finset.range 7, Real.cos (Real.pi * (m : ℝ) * ((u : ℝ) + 1) / 8)) + 1 := by
  unfold dctG
  rw [show (8 : ℕ) = 7 + 1 from rfl, Finset.sum_range_succ']
  congr 1
  · refine Finset.sum_congr rfl fun u _ => ?_
    congr 1
    push_cast
    ring
  · simp

theorem dct_orth_aux (d s : ℤ) :
    ∑ u ∈ Finset.range 8, ((if u = 0 then (1 / 8 : ℝ) else 1 / 4) *
      ((Real.cos (Real.pi * (d : ℝ) * (u : ℝ) / 8) +
        Real.cos (Real.pi * (s : ℝ) * (u : ℝ) / 8)) / 2))
      = (dctG d + dctG s) / 8 - 1 / 8 := by
  rw [show (8 : ℕ) = 7 + 1 from rfl, Finset.sum_range_succ']
  have hterm : ∀ u ∈ Finset.range 7,
      (if u + 1 = 0 then (1 / 8 : ℝ) else 1 / 4) *
        ((Real.cos (Real.pi * (d : ℝ) * ((u + 1 : ℕ) : ℝ) / 8) +
          Real.cos (Real.pi * (s : ℝ) * ((u + 1 : ℕ) : ℝ) / 8)) / 2)
      = Real.cos (Real.pi * (d : ℝ) * ((u : ℝ) + 1) / 8) / 8 +
        Real.cos (Real.pi * (s : ℝ) * ((u : ℝ) + 1) / 8) / 8 := by
    intro u _
    rw [if_neg (Nat.succ_ne_zero u)]
    push_cast
    ring
  rw [Finset.sum_congr rfl hterm, Finset.sum_add_distrib, ← Finset.sum_div, ← Finset.sum_div]
  have hd := dctG_peel d
  have hs := dctG_peel s
  have h0 : (if (0 : ℕ) = 0 then (1 / 8 : ℝ) else 1 / 4) *
      ((Real.cos (Real.pi * (d : ℝ) * ((0 : ℕ) : ℝ) / 8) +
        Real.cos (Real.pi * (s : ℝ) * ((0 : ℕ) : ℝ) / 8)) / 2) = 1 / 8 := by
    simp
  rw [h0]
  linarith [hd, hs]

theorem dct_orth (x xp : Fin 8) :
    ∑ u : Fin 8, dctAlpha (u : ℕ) ^ 2 * (dctCos (u : ℕ) (x : ℕ) * dctCos (u : ℕ) (xp : ℕ))
      = if x = xp then 1 else 0 := by
  have key : ∀ u : Fin 8,
      dctAlpha (u : ℕ) ^ 2 * (dctCos (u : ℕ) (x : ℕ) * dctCos (u : ℕ) (xp : ℕ))
      = (if (u : ℕ) = 0 then (1 / 8 : ℝ) else 1 / 4) *
        ((Real.cos (Real.pi * (((x : ℤ) - (xp : ℤ) : ℤ) : ℝ) * ((u : ℕ) : ℝ) / 8) +
          Real.cos (Real.pi * (((x : ℤ) + (xp : ℤ) + 1 : ℤ) : ℝ) * ((u : ℕ) : ℝ) / 8)) / 2) := by
    intro u
    have ha : dctAlpha (u : ℕ) ^ 2 = if (u : ℕ) = 0 then (1 / 8 : ℝ) else 1 / 4 := by
      unfold dctAlpha
      split_ifs
      · rw [Real.sq_sqrt (by norm_num : (0:ℝ) ≤ 1/8)]
      · norm_num
    rw [ha]
    congr 1
    unfold dctCos
    have hsum : Real.cos ((Real.pi / 8 * ((u : ℕ) : ℝ) * (((x : ℕ) : ℝ) + 0.5)) -
          (Real.pi / 8 * ((u : ℕ) : ℝ) * (((xp : ℕ) : ℝ) + 0.5))) +
        Real.cos ((Real.pi / 8 * ((u : ℕ) : ℝ) * (((x : ℕ) : ℝ) + 0.5)) +
          (Real.pi / 8 * ((u : ℕ) : ℝ) * (((xp : ℕ) : ℝ) + 0.5)))
        = 2 * (Real.cos (Real.pi / 8 * ((u : ℕ) : ℝ) * (((x : ℕ) : ℝ) + 0.5)) *
            Real.cos (Real.pi / 8 * ((u : ℕ) : ℝ) * (((xp : ℕ) : ℝ) + 0.5))) := by
      rw [Real.cos_sub, Real.cos_add]
      ring
    have hab1 : (Real.pi / 8 * ((u : ℕ) : ℝ) * (((x : ℕ) : ℝ) + 0.5)) -
        (Real.pi / 8 * ((u : ℕ) : ℝ) * (((xp : ℕ) : ℝ) + 0.5))
        = Real.pi * (((x : ℤ) - (xp : ℤ) : ℤ) : ℝ) * ((u : ℕ) : ℝ) / 8 := by
      push_cast
      ring
    have hab2 : (Real.pi / 8 * ((u : ℕ) : ℝ) * (((x : ℕ) : ℝ) + 0.5)) +
        (Real.pi / 8 * ((u : ℕ) : ℝ) * (((xp : ℕ) : ℝ) + 0.5))
        = Real.pi * (((x : ℤ) + (xp : ℤ) + 1 : ℤ) : ℝ) * ((u : ℕ) : ℝ) / 8 := by
      push_cast
      ring
    rw [← hab1, ← hab2, hsum]
    ring
  rw [Finset.sum_congr rfl (fun u _ => key u)]
  rw [Fin.sum_univ_eq_sum_range (fun n => (if n = 0 then (1 / 8 : ℝ) else 1 / 4) *
    ((Real.cos (Real.pi * (((x : ℤ) - (xp : ℤ) : ℤ) : ℝ) * (n : ℝ) / 8) +
      Real.cos (Real.pi * (((x : ℤ) + (xp : ℤ) + 1 : ℤ) : ℝ) * (n : ℝ) / 8)) / 2)) 8]
  rw [dct_orth_aux ((x : ℤ) - (xp : ℤ)) ((x : ℤ) + (xp : ℤ) + 1)]
  rcases eq_or_ne x xp with rfl | hne
  · rw [if_pos rfl]
    have hd : dctG ((x : ℤ) - (x : ℤ)) = 8 := by
      rw [sub_self]
      exact dctG_of_sixteen_dvd 0 (dvd_zero 16)
    have hs : dctG ((x : ℤ) + (x : ℤ) + 1) = 1 :=
      dctG_of_odd _ ⟨(x : ℤ), by ring⟩
    rw [hd, hs]
    norm_num
  · rw [if_neg hne]
    have hxv : ((x : ℕ) : ℤ) ≠ ((xp : ℕ) : ℤ) := by
      intro hc
      exact hne (Fin.ext (by exact_mod_cast hc))
    have hxb : ((x : ℕ) : ℤ) < 8 := by exact_mod_cast x.isLt
    have hxpb : ((xp : ℕ) : ℤ) < 8 := by exact_mod_cast xp.isLt
    have hx0 : (0 : ℤ) ≤ ((x : ℕ) : ℤ) := Int.natCast_nonneg _
    have hxp0 : (0 : ℤ) ≤ ((xp : ℕ) : ℤ) := Int.natCast_nonneg _
    rcases Int.even_or_odd ((x : ℤ) - (xp : ℤ)) with hd | hd
    · have hdnd : ¬(16 : ℤ) ∣ ((x : ℤ) - (xp : ℤ)) := by
        rintro ⟨k, hk⟩
        omega
      have hsodd : Odd ((x : ℤ) + (xp : ℤ) + 1) := by
        rcases hd with ⟨j, hj⟩
        exact Int.odd_iff.mpr (by omega)
      rw [dctG_of_even_not_dvd _ hd hdnd, dctG_of_odd _ hsodd]
      norm_num
    · have hseven : Even ((x : ℤ) + (xp : ℤ) + 1) := by
        rcases hd with ⟨j, hj⟩
        exact Int.even_iff.mpr (by omega)
      have hsnd : ¬(16 : ℤ) ∣ ((x : ℤ) + (xp : ℤ) + 1) := by
        rintro ⟨k, hk⟩
        omega
      rw [dctG_of_odd _ hd, dctG_of_even_not_dvd _ hseven hsnd]
      norm_num

theorem idct_fdct (v : Fin 8 → ℝ) : idct_1d (fdct_1d v) = v := by
  funext x
  unfold idct_1d fdct_1d
  have hswap : ∀ u : Fin 8,
      dctAlpha (u : ℕ) * ((∑ xp : Fin 8, v xp * dctCos (u : ℕ) (xp : ℕ)) * dctAlpha (u : ℕ)) *
        dctCos (u : ℕ) (x : ℕ)
      = ∑ xp : Fin 8, v xp * (dctAlpha (u : ℕ) ^ 2 * (dctCos (u : ℕ) (xp : ℕ) * dctCos (u : ℕ) (x : ℕ))) := by
    intro u
    calc dctAlpha (u : ℕ) * ((∑ xp : Fin 8, v xp * dctCos (u : ℕ) (xp : ℕ)) * dctAlpha (u : ℕ)) *
          dctCos (u : ℕ) (x : ℕ)
        = (∑ xp : Fin 8, v xp * dctCos (u : ℕ) (xp : ℕ)) *
            (dctAlpha (u : ℕ) ^ 2 * dctCos (u : ℕ) (x : ℕ)) := by ring
      _ = ∑ xp : Fin 8, v xp * dctCos (u : ℕ) (xp : ℕ) *
            (dctAlpha (u : ℕ) ^ 2 * dctCos (u : ℕ) (x : ℕ)) := by rw [Finset.sum_mul]
      _ = ∑ xp : Fin 8, v xp *
            (dctAlpha (u : ℕ) ^ 2 * (dctCos (u : ℕ) (xp : ℕ) * dctCos (u : ℕ) (x : ℕ))) :=
          Finset.sum_congr rfl fun xp _ => by ring
  rw [Finset.sum_congr rfl (fun u _ => hswap u), Finset.sum_comm]
  have hinner : ∀ xp : Fin 8,
      ∑ u : Fin 8, v xp * (dctAlpha (u : ℕ) ^ 2 * (dctCos (u : ℕ) (xp : ℕ) * dctCos (u : ℕ) (x : ℕ)))
      = v xp * (if xp = x then 1 else 0) := by
    intro xp
    rw [← Finset.mul_sum, dct_orth xp x]
  rw [Finset.sum_congr rfl (fun xp _ => hinner xp)]
  simp

theorem inverse_forward_dct (b : Fin 8 → Fin 8 → ℝ) : inverse_dct (forward_dct b) = b := by
  funext y x
  unfold inverse_dct forward_dct
  have hinner : ∀ v : Fin 8,
      idct_1d (fun u => fdct_1d (fun r => fdct_1d (b r) v) u) y = fdct_1d (b y) v := by
    intro v
    exact congrFun (idct_fdct (fun r => fdct_1d (b r) v)) y
  have hfun : (fun v => idct_1d (fun u => fdct_1d (fun r => fdct_1d (b r) v) u) y)
      = fdct_1d (b y) := funext hinner
  rw [hfun]
  exact congrFun (idct_fdct (b y)) x

theorem c8_resample_identity_witness :
    (compute_channels ⟨1, 1, [(0 : ℝ), 1, 1 / 2]⟩ ≠ 0 ∧
      ∀ v ∈ [(0 : ℝ), 1, 1 / 2], 0 ≤ v ∧ v ≤ 1) ∧
    resample_cubic ⟨1, 1, [(0 : ℝ), 1, 1 / 2]⟩ 1 1 = ⟨1, 1, [(0 : ℝ), 1, 1 / 2]⟩ :=
  ⟨⟨by decide, by
      intro v hv
      rcases List.mem_cons.mp hv with rfl | hv
      · norm_num
      rcases List.mem_cons.mp hv with rfl | hv
      · norm_num
      rcases List.mem_cons.mp hv with rfl | hv
      · norm_num
      · exact absurd hv (List.not_mem_nil v)⟩,
   resample_cubic_self_identity ⟨1, 1, [(0 : ℝ), 1, 1 / 2]⟩ (by decide) (by
      intro v hv
      rcases List.mem_cons.mp hv with rfl | hv
      · norm_num
      rcases List.mem_cons.mp hv with rfl | hv
      · norm_num
      rcases List.mem_cons.mp hv with rfl | hv
      · norm_num
      · exact absurd hv (List.not_mem_nil v))⟩


theorem dct_quantize_at_100 (b : Fin 8 → Fin 8 → ℝ) : dct_quantize 100 b = b := by
  unfold dct_quantize
  rw [if_neg (by norm_num)]

theorem index_decompose2 (i ch w : ℕ) :
    (i / ch / w * w + i / ch % w) * ch + i % ch = i := by
  have h1 : w * (i / ch / w) + i / ch % w = i / ch := Nat.div_add_mod (i / ch) w
  have h2 : ch * (i / ch) + i % ch = i := Nat.div_add_mod i ch
  calc (i / ch / w * w + i / ch % w) * ch + i % ch
      = ch * (w * (i / ch / w) + i / ch % w) + i % ch := by ring
    _ = ch * (i / ch) + i % ch := by rw [h1]
    _ = i := h2

/-- C6: at quality `100` the block-transform attenuator is the identity on
every image with nonzero dimensions and a consistent channel count (exactly,
in the real-number model of the arithmetic, which is what "within
floating-point rounding" idealizes to): the quantization step is skipped
entirely and each tile goes through the forward transform followed by the
inverse transform, an exact round trip. -/
theorem dct_attenuate_quality_100 (input : Image)
    (hw : input.width ≠ 0) (hh : input.height ≠ 0)
    (hch : compute_channels input ≠ 0) :
    dct8x8_hf_attenuate input 100 = input := by
  obtain ⟨w, h, px⟩ := input
  have hwh : ¬(w = 0 ∨ h = 0) := by
    intro hc
    rcases hc with hc | hc
    · exact hw hc
    · exact hh hc
  have hmod : px.length % (w * h) = 0 := by
    by_contra hmod
    exact hch (by unfold compute_channels; rw [if_neg hwh, if_pos hmod])
  have hchval : compute_channels ⟨w, h, px⟩ = px.length / (w * h) := by
    unfold compute_channels
    rw [if_neg hwh, if_neg (by simpa using hmod)]
  have hlen : w * h * compute_channels ⟨w, h, px⟩ = px.length := by
    rw [hchval]
    exact Nat.mul_div_cancel' (Nat.dvd_of_mod_eq_zero hmod)
  have hwpos : 0 < w := by omega
  have hhpos : 0 < h := by omega
  have hchpos : 0 < compute_channels ⟨w, h, px⟩ := Nat.pos_of_ne_zero hch
  set ch := compute_channels ⟨w, h, px⟩ with hchdef
  show dct8x8_hf_attenuate ⟨w, h, px⟩ 100 = ⟨w, h, px⟩
  unfold dct8x8_hf_attenuate
  rw [if_neg hwh, if_neg (by rw [← hchdef]; exact hch), ← hchdef]
  refine congrArg (Image.mk w h) (List.ext_getElem (by simp) ?_)
  intro i hi1 hi2
  rw [List.getElem_ofFn]
  show dct_tile_value ⟨w, h, px⟩ ch 100 (i / ch % w) (i / ch / w) (i % ch) = px[i]
  have hxw : i / ch % w < w := Nat.mod_lt _ hwpos
  have hyh : i / ch / w < h := by
    rw [Nat.div_lt_iff_lt_mul hwpos, Nat.div_lt_iff_lt_mul hchpos]
    calc i < px.length := hi2
      _ = w * h * ch := hlen.symm
      _ = h * w * ch := by ring
  unfold dct_tile_value
  rw [dct_quantize_at_100, inverse_forward_dct]
  unfold dct_block
  show px.getD
      ((clamp_index (i / ch / w / 8 * 8 + i / ch / w % 8) h * w +
          clamp_index (i / ch % w / 8 * 8 + i / ch % w % 8) w) * ch + i % ch) 0 = px[i]
  have hyy : i / ch / w / 8 * 8 + i / ch / w % 8 = i / ch / w := by omega
  have hxx : i / ch % w / 8 * 8 + i / ch % w % 8 = i / ch % w := by omega
  rw [hyy, hxx]
  have hcy : clamp_index (i / ch / w) h = i / ch / w := by
    unfold clamp_index
    rw [if_neg (by omega)]
  have hcx : clamp_index (i / ch % w) w = i / ch % w := by
    unfold clamp_index
    rw [if_neg (by omega)]
  rw [hcy, hcx, index_decompose2 i ch w, List.getD_eq_getElem px 0 hi2]

theorem c6_dct_identity_witness :
    ((1 : ℕ) ≠ 0 ∧ (1 : ℕ) ≠ 0 ∧ compute_channels ⟨1, 1, [(0 : ℝ), 1 / 2, 1]⟩ ≠ 0) ∧
    dct8x8_hf_attenuate ⟨1, 1, [(0 : ℝ), 1 / 2, 1]⟩ 100 = ⟨1, 1, [(0 : ℝ), 1 / 2, 1]⟩ :=
  ⟨⟨by decide, by decide, by decide⟩,
   dct_attenuate_quality_100 ⟨1, 1, [(0 : ℝ), 1 / 2, 1]⟩ (by decide) (by decide) (by decide)⟩



theorem bytes_per_channel_pos (t : PixelType) : 0 < bytes_per_channel t := by
  cases t <;> decide

theorem pixel_channels_of_supported (t : PixelType) (h : supported_type t = true) :
    pixel_channels t = 3 := by
  cases t
  · rfl
  · exact absurd h (by decide)
  · rfl

theorem validate_image_facts (img : CpuImage) (hv : validate_image img = true) :
    img.width ≠ 0 ∧ img.height ≠ 0 ∧ img.row_bytes ≤ img.stride_bytes ∧
      img.data.isSome = true ∧ img.stride_bytes % bytes_per_channel img.type = 0 := by
  unfold validate_image at hv
  split_ifs at hv with h1 h2 h3 h4 h5
  refine ⟨?_, ?_, ?_, ?_, ?_⟩
  · intro hc; exact h2 (Or.inl hc)
  · intro hc; exact h2 (Or.inr hc)
  · omega
  · rcases himg : img.data with _ | f
    · rw [himg] at h4; exact absurd rfl h4
    · rfl
  · rcases Decidable.em (img.stride_bytes % bytes_per_channel img.type = 0) with h | h
    · exact h
    · exact absurd (Or.inr h) h5

theorem rowElems_le_strideElems (img : CpuImage) (hv : validate_image img = true) :
    rowElems img ≤ strideElems img := by
  rcases validate_image_facts img hv with ⟨_, _, hrow, _, _⟩
  unfold rowElems strideElems
  rw [Nat.le_div_iff_mul_le (bytes_per_channel_pos img.type)]
  calc img.width * pixel_channels img.type * bytes_per_channel img.type
      = img.width * bytes_per_pixel img.type := by unfold bytes_per_pixel; ring
    _ = img.row_bytes := rfl
    _ ≤ img.stride_bytes := hrow

theorem strideElems_pos (img : CpuImage) (hv : validate_image img = true) :
    0 < strideElems img := by
  rcases validate_image_facts img hv with ⟨hw, _, _, _, _⟩
  have h1 : rowElems img ≤ strideElems img := rowElems_le_strideElems img hv
  have h2 : 0 < rowElems img := by
    unfold rowElems
    have : 0 < pixel_channels img.type := by cases img.type <;> decide
    exact Nat.mul_pos (Nat.pos_of_ne_zero hw) this
  omega

theorem validate_float_view (w h : ℕ) (hw : w ≠ 0) (hh : h ≠ 0) (f : ℕ → ℝ) :
    validate_image ⟨PixelType.F32_RGB, w, h, w * 3 * 4, some f⟩ = true := by
  show (if bytes_per_pixel PixelType.F32_RGB = 0 then false
    else if w = 0 ∨ h = 0 then false
    else if w * 3 * 4 < w * bytes_per_pixel PixelType.F32_RGB then false
    else if (some f).isNone then false
    else if bytes_per_channel PixelType.F32_RGB = 0 ∨
        w * 3 * 4 % bytes_per_channel PixelType.F32_RGB ≠ 0 then false
    else true) = true
  show (if (12 : ℕ) = 0 then false
    else if w = 0 ∨ h = 0 then false
    else if w * 3 * 4 < w * 12 then false
    else if False then false
    else if (4 : ℕ) = 0 ∨ w * 3 * 4 % 4 ≠ 0 then false
    else true) = true
  rw [if_neg (by norm_num), if_neg (not_or.mpr ⟨hw, hh⟩), if_neg (by omega),
    if_neg (by simp), if_neg (by omega)]

theorem float_view_strideElems (w h : ℕ) (f : ℕ → ℝ) :
    strideElems ⟨PixelType.F32_RGB, w, h, w * 3 * 4, some f⟩ = w * 3 := by
  show w * 3 * 4 / 4 = w * 3
  omega

theorem float_view_rowElems (w h : ℕ) (f : ℕ → ℝ) :
    rowElems ⟨PixelType.F32_RGB, w, h, w * 3 * 4, some f⟩ = w * 3 := rfl

theorem writeRows_at (dst : CpuImage) (f : ℕ → ℕ → ℝ) (y k : ℕ)
    (hy : y < dst.height) (hk : k < rowElems dst) (hrow : rowElems dst ≤ strideElems dst) :
    writeRows dst f (y * strideElems dst + k) = f y k := by
  have hse : 0 < strideElems dst := by omega
  have hkse : k < strideElems dst := by omega
  have hdiv : (y * strideElems dst + k) / strideElems dst = y := by
    rw [mul_comm, Nat.mul_add_div hse, Nat.div_eq_of_lt hkse, Nat.add_zero]
  have hmod : (y * strideElems dst + k) % strideElems dst = k := by
    rw [mul_comm, Nat.mul_add_mod, Nat.mod_eq_of_lt hkse]
  unfold writeRows
  rw [hdiv, hmod, if_pos ⟨hy, hk⟩]

theorem scaled_dimension_pos (value : ℕ) (s : ℝ) : scaled_dimension value s ≠ 0 := by
  unfold scaled_dimension
  split_ifs with h
  · omega
  · omega

theorem quantize_in_place_length (d : List ℝ) (w h c b : ℕ) :
    (quantize_in_place d w h c b).length = d.length := by
  unfold quantize_in_place
  split_ifs
  · rfl
  · simp

theorem quantize_bitdepth_shape (img : Image) (bits : ℕ) :
    (quantize_bitdepth img bits).width = img.width ∧
      (quantize_bitdepth img bits).height = img.height ∧
      (quantize_bitdepth img bits).pixels.length = img.pixels.length := by
  unfold quantize_bitdepth
  split_ifs
  · exact ⟨rfl, rfl, rfl⟩
  · exact ⟨rfl, rfl, quantize_in_place_length _ _ _ _ _⟩

theorem dct8x8_shape (img : Image) (q : ℤ) :
    (dct8x8_hf_attenuate img q).width = img.width ∧
      (dct8x8_hf_attenuate img q).height = img.height ∧
      (dct8x8_hf_attenuate img q).pixels.length = img.pixels.length := by
  unfold dct8x8_hf_attenuate
  split_ifs
  · exact ⟨rfl, rfl, rfl⟩
  · exact ⟨rfl, rfl, rfl⟩
  · exact ⟨rfl, rfl, by simp⟩

theorem resample_cubic_dims (img : Image) (nw nh : ℕ) :
    (resample_cubic img nw nh).width = nw ∧ (resample_cubic img nw nh).height = nh := by
  unfold resample_cubic
  split_ifs <;> exact ⟨rfl, rfl⟩

theorem resample_cubic_length (img : Image) (nw nh : ℕ) (hnw : nw ≠ 0) (hnh : nh ≠ 0)
    (hch : compute_channels img ≠ 0) :
    (resample_cubic img nw nh).pixels.length = nw * nh * compute_channels img := by
  unfold resample_cubic
  rw [if_neg (not_or.mpr ⟨hnw, hnh⟩), if_neg hch]
  split_ifs
  · simp
  · simp
  · rw [List.length_ofFn]
    ring

theorem compute_channels_of_len (w h c : ℕ) (px : List ℝ) (hw : w ≠ 0) (hh : h ≠ 0)
    (hc : px.length = w * h * c) : compute_channels ⟨w, h, px⟩ = c := by
  unfold compute_channels
  rw [if_neg (not_or.mpr ⟨hw, hh⟩)]
  have hm : px.length % (w * h) = 0 := by
    rw [hc]
    exact Nat.mul_mod_right (w * h) c
  rw [if_neg (by simpa using hm), hc]
  exact Nat.mul_div_cancel_left c (Nat.mul_pos (Nat.pos_of_ne_zero hw) (Nat.pos_of_ne_zero hh))



theorem compute_channels_eq (img : Image) (c : ℕ) (hw : img.width ≠ 0) (hh : img.height ≠ 0)
    (hc : img.pixels.length = img.width * img.height * c) : compute_channels img = c := by
  unfold compute_channels
  rw [if_neg (not_or.mpr ⟨hw, hh⟩)]
  have hm : img.pixels.length % (img.width * img.height) = 0 := by
    rw [hc]
    exact Nat.mul_mod_right (img.width * img.height) c
  rw [if_neg (by simpa using hm), hc]
  exact Nat.mul_div_cancel_left c
    (Nat.mul_pos (Nat.pos_of_ne_zero hw) (Nat.pos_of_ne_zero hh))

theorem convert_to_float_some (src : CpuImage) (hv : validate_image src = true) (f0 : ℕ → ℝ) :
    ∃ m, convert_image src
      ⟨PixelType.F32_RGB, src.width, src.height, src.width * 3 * 4, some f0⟩ = some m := by
  rcases validate_image_facts src hv with ⟨hw, hh, _, _, _⟩
  have hvv := validate_float_view src.width src.height hw hh f0
  unfold convert_image
  rw [if_neg (by push_neg; exact ⟨hv, hvv⟩), if_neg (by push_neg; exact ⟨rfl, rfl⟩)]
  obtain ⟨t, w, h, sb, d⟩ := src
  cases t
  · rw [if_neg (by show ¬(PixelType.U8_RGB = PixelType.F32_RGB); decide)]
    exact ⟨_, rfl⟩
  · rw [if_neg (by show ¬(PixelType.U8_RGBA = PixelType.F32_RGB); decide)]
    exact ⟨_, rfl⟩
  · rw [if_pos rfl]
    exact ⟨_, rfl⟩

theorem to_float_image_some (src : CpuImage) (hv : validate_image src = true) :
    ∃ working, to_float_image src = some working ∧ working.width = src.width ∧
      working.height = src.height ∧
      working.pixels.length = src.width * src.height * 3 := by
  rcases convert_to_float_some src hv (fun _ => 0) with ⟨m, hm⟩
  refine ⟨⟨src.width, src.height,
    List.ofFn (fun i : Fin (src.width * src.height * 3) => m i)⟩, ?_, rfl, rfl, by simp⟩
  unfold to_float_image
  rw [if_neg (by simp [hv])]
  simp only [hm]

theorem convert_same_type_some (src dst : CpuImage) (hvs : validate_image src = true)
    (hvd : validate_image dst = true) (hty : src.type = dst.type)
    (hw : src.width = dst.width) (hh : src.height = dst.height) :
    convert_image src dst
      = some (writeRows dst (fun y k => memOf src (y * strideElems src + k))) := by
  unfold convert_image
  rw [if_neg (by push_neg; exact ⟨hvs, hvd⟩), if_neg (by push_neg; exact ⟨hw, hh⟩),
    if_pos hty]

theorem convert_from_float_spec (w h : ℕ) (f : ℕ → ℝ) (dst : CpuImage)
    (hvd : validate_image dst = true) (hsupp : supported_type dst.type = true)
    (hw : w = dst.width) (hh : h = dst.height) (hw0 : w ≠ 0) (hh0 : h ≠ 0) :
    ∃ m, convert_image ⟨PixelType.F32_RGB, w, h, w * 3 * 4, some f⟩ dst = some m ∧
      ∀ y < dst.height, ∀ k < w * 3,
        m (y * strideElems dst + k)
          = (match dst.type with
             | PixelType.F32_RGB => f (y * (w * 3) + k)
             | PixelType.U8_RGB => (float_to_u8 (f (y * (w * 3) + k)) : ℝ)
             | PixelType.U8_RGBA => 0) := by
  have hvv := validate_float_view w h hw0 hh0 f
  have hrow : rowElems dst ≤ strideElems dst := rowElems_le_strideElems dst hvd
  have hre : rowElems dst = w * 3 := by
    unfold rowElems
    rw [← hw, pixel_channels_of_supported dst.type hsupp]
  have hmem : ∀ p, memOf ⟨PixelType.F32_RGB, w, h, w * 3 * 4, some f⟩ p = f p := fun p => rfl
  have hse : strideElems ⟨PixelType.F32_RGB, w, h, w * 3 * 4, some f⟩ = w * 3 :=
    float_view_strideElems w h f
  unfold convert_image
  rw [if_neg (by push_neg; exact ⟨hvv, hvd⟩), if_neg (by push_neg; exact ⟨hw, hh⟩)]
  obtain ⟨t, dw, dh, dsb, dd⟩ := dst
  cases t
  · rw [if_neg (by show ¬(PixelType.F32_RGB = PixelType.U8_RGB); decide)]
    refine ⟨_, rfl, ?_⟩
    intro y hy k hk
    rw [writeRows_at _ _ y k hy (by rw [hre]; exact hk) hrow, hmem, hse]
  · exact absurd hsupp (by show ¬(supported_type PixelType.U8_RGBA = true); decide)
  · rw [if_pos rfl]
    refine ⟨_, rfl, ?_⟩
    intro y hy k hk
    rw [writeRows_at _ _ y k hy (by rw [hre]; exact hk) hrow, hmem, hse]

theorem from_float_image_spec (img : Image) (dst : CpuImage)
    (hvd : validate_image dst = true) (hsupp : supported_type dst.type = true)
    (hw : img.width = dst.width) (hh : img.height = dst.height)
    (hw0 : img.width ≠ 0) (hh0 : img.height ≠ 0) (hne : img.pixels ≠ []) :
    ∃ m, from_float_image img dst = some m ∧
      ∀ y < dst.height, ∀ k < img.width * 3,
        m (y * strideElems dst + k) = convertedSample dst.type img y k := by
  unfold from_float_image
  rw [if_neg (by push_neg; exact ⟨hw, hh⟩), if_neg (by simp [List.isEmpty_iff, hne])]
  rcases convert_from_float_spec img.width img.height (fun p => img.pixels.getD p 0) dst
      hvd hsupp hw hh hw0 hh0 with ⟨m, hm, hval⟩
  refine ⟨m, hm, ?_⟩
  intro y hy k hk
  rw [hval y hy k hk]
  unfold convertedSample
  obtain ⟨t, dw, dh, dsb, dd⟩ := dst
  cases t <;> rfl

theorem sanSrMem_some (working : Image) (W H : ℕ) (hWe : W % 2 = 0) (hHe : H % 2 = 0)
    (hW0 : W ≠ 0) (hH0 : H ≠ 0) :
    ∃ srm, sanSrMem working W H = some srm := by
  have hw2 : W / 2 ≠ 0 := by omega
  have hh2 : H / 2 ≠ 0 := by omega
  unfold sanSrMem sr_lite_refine sanSrInView sanSrOutView
  have hvin := validate_float_view (W / 2) (H / 2) hw2 hh2
    (fun p => (sanSrInput working W H).pixels.getD p 0)
  have hvout := validate_float_view W H hW0 hH0 (fun _ => (0 : ℝ))
  rw [if_neg (by push_neg; exact ⟨hvin, hvout⟩), if_neg (not_or.mpr ⟨hw2, hh2⟩),
    if_neg (by push_neg; show W = W / 2 * 2 ∧ H = H / 2 * 2; constructor <;> omega),
    if_neg (by simp [sr_supports_type])]
  have hc1 := convert_same_type_some
    ⟨PixelType.F32_RGB, W / 2, H / 2, W / 2 * 3 * 4,
      some (fun p => (sanSrInput working W H).pixels.getD p 0)⟩
    ⟨PixelType.F32_RGB, W / 2, H / 2, W / 2 * 3 * 4, some (fun _ => 0)⟩
    hvin (validate_float_view (W / 2) (H / 2) hw2 hh2 (fun _ => 0)) rfl rfl rfl
  simp only [hc1]
  exact ⟨_, convert_same_type_some _ _
    (validate_float_view W H hW0 hH0 _) hvout rfl rfl rfl⟩



theorem sanitize_success (input output : CpuImage)
    (hvi : validate_image input = true) (hvo : validate_image output = true)
    (hsi : supported_type input.type = true) (hso : supported_type output.type = true)
    (hweq : input.width = output.width) (hheq : input.height = output.height)
    (hwe : output.width % 2 = 0) (hhe : output.height % 2 = 0) :
    ∃ working srm m,
      to_float_image input = some working ∧
      sanSrMem working output.width output.height = some srm ∧
      from_float_image (sanFinal working output.width output.height srm) output = some m ∧
      sanitize input output = (true, m) ∧
      ∀ y < output.height, ∀ k < output.width * 3,
        m (y * strideElems output + k)
          = convertedSample output.type (sanFinal working output.width output.height srm) y k := by
  rcases validate_image_facts input hvi with ⟨hiw, hih, _, _, _⟩
  have hW0 : output.width ≠ 0 := by rw [← hweq]; exact hiw
  have hH0 : output.height ≠ 0 := by rw [← hheq]; exact hih
  rcases to_float_image_some input hvi with ⟨working, hto, hww, hwh, hwlen⟩
  have hdw := scaled_dimension_pos working.width (0.25 : ℝ)
  have hdh := scaled_dimension_pos working.height (0.25 : ℝ)
  have hchw : compute_channels working = 3 :=
    compute_channels_eq working 3 (by rw [hww]; exact hiw) (by rw [hwh]; exact hih)
      (by rw [hwlen, hww, hwh])
  have hlr0len : (resample_cubic working (scaled_dimension working.width 0.25)
      (scaled_dimension working.height 0.25)).pixels.length
      = scaled_dimension working.width 0.25 * scaled_dimension working.height 0.25 * 3 := by
    have h := resample_cubic_length working (scaled_dimension working.width 0.25)
      (scaled_dimension working.height 0.25) hdw hdh (by rw [hchw]; norm_num)
    rw [hchw] at h
    exact h
  have hlr0dims := resample_cubic_dims working (scaled_dimension working.width 0.25)
      (scaled_dimension working.height 0.25)
  have hprod3 : scaled_dimension working.width 0.25 * scaled_dimension working.height 0.25 * 3
      ≠ 0 := Nat.mul_ne_zero (Nat.mul_ne_zero hdw hdh) (by norm_num)
  have hlr0ne : (resample_cubic working (scaled_dimension working.width 0.25)
      (scaled_dimension working.height 0.25)).pixels ≠ [] := by
    intro hc
    apply hprod3
    rw [← hlr0len, hc]
    rfl
  have hq := quantize_bitdepth_shape (resample_cubic working
      (scaled_dimension working.width 0.25) (scaled_dimension working.height 0.25)) 6
  have hlrw : (sanLowRes working).width = scaled_dimension working.width 0.25 := by
    unfold sanLowRes
    rw [hq.1, hlr0dims.1]
  have hlrh : (sanLowRes working).height = scaled_dimension working.height 0.25 := by
    unfold sanLowRes
    rw [hq.2.1, hlr0dims.2]
  have hlrlen : (sanLowRes working).pixels.length
      = scaled_dimension working.width 0.25 * scaled_dimension working.height 0.25 * 3 := by
    unfold sanLowRes
    rw [hq.2.2, hlr0len]
  have hfdims := dct8x8_shape (sanLowRes working) 60
  have hfw : (sanFiltered working).width = scaled_dimension working.width 0.25 := by
    unfold sanFiltered
    rw [hfdims.1, hlrw]
  have hfh : (sanFiltered working).height = scaled_dimension working.height 0.25 := by
    unfold sanFiltered
    rw [hfdims.2.1, hlrh]
  have hflen : (sanFiltered working).pixels.length
      = scaled_dimension working.width 0.25 * scaled_dimension working.height 0.25 * 3 := by
    unfold sanFiltered
    rw [hfdims.2.2, hlrlen]
  have hfne : (sanFiltered working).pixels ≠ [] := by
    intro hc
    apply hprod3
    rw [← hflen, hc]
    rfl
  have hbw : (sanBlend working).width = scaled_dimension working.width 0.25 := by
    unfold sanBlend
    exact hfw
  have hbh : (sanBlend working).height = scaled_dimension working.height 0.25 := by
    unfold sanBlend
    exact hfh
  have hblen : (sanBlend working).pixels.length
      = scaled_dimension working.width 0.25 * scaled_dimension working.height 0.25 * 3 := by
    unfold sanBlend
    simp only [List.length_ofFn]
    exact hflen
  have hchb : compute_channels (sanBlend working) = 3 :=
    compute_channels_eq (sanBlend working) 3 (by rw [hbw]; exact hdw) (by rw [hbh]; exact hdh)
      (by rw [hblen, hbw, hbh])
  have hupslen : (sanUpscaled working output.width output.height).pixels.length
      = output.width * output.height * 3 := by
    unfold sanUpscaled
    have h := resample_cubic_length (sanBlend working) output.width output.height hW0 hH0
      (by rw [hchb]; norm_num)
    rw [hchb] at h
    exact h
  have hupsne : (sanUpscaled working output.width output.height).pixels ≠ [] := by
    intro hc
    apply Nat.mul_ne_zero (Nat.mul_ne_zero hW0 hH0) (by norm_num : (3 : ℕ) ≠ 0)
    rw [← hupslen, hc]
    rfl
  have hw2 : output.width / 2 ≠ 0 := by omega
  have hh2 : output.height / 2 ≠ 0 := by omega
  have hsrinlen : (sanSrInput working output.width output.height).pixels.length
      = output.width / 2 * (output.height / 2) * 3 := by
    unfold sanSrInput
    have h := resample_cubic_length (sanBlend working) (output.width / 2) (output.height / 2)
      hw2 hh2 (by rw [hchb]; norm_num)
    rw [hchb] at h
    exact h
  have hsrinne : (sanSrInput working output.width output.height).pixels ≠ [] := by
    intro hc
    apply Nat.mul_ne_zero (Nat.mul_ne_zero hw2 hh2) (by norm_num : (3 : ℕ) ≠ 0)
    rw [← hsrinlen, hc]
    rfl
  rcases sanSrMem_some working output.width output.height hwe hhe hW0 hH0 with ⟨srm, hsr⟩
  have hfinlen : (sanFinal working output.width output.height srm).pixels.length
      = output.width * output.height * 3 := by
    unfold sanFinal
    simp
  have hfinne : (sanFinal working output.width output.height srm).pixels ≠ [] := by
    intro hc
    apply Nat.mul_ne_zero (Nat.mul_ne_zero hW0 hH0) (by norm_num : (3 : ℕ) ≠ 0)
    rw [← hfinlen, hc]
    rfl
  rcases from_float_image_spec (sanFinal working output.width output.height srm) output
      hvo hso rfl rfl hW0 hH0 hfinne with ⟨m, hff, hmval⟩
  refine ⟨working, srm, m, hto, hsr, hff, ?_, ?_⟩
  · unfold sanitize
    rw [if_neg (by push_neg; exact ⟨hvi, hvo⟩), if_neg (by simp [hsi, hso]),
      if_neg (not_or.mpr ⟨hiw, hih⟩), if_neg (by push_neg; exact ⟨hweq, hheq⟩),
      if_neg (by omega)]
    simp only [hto]
    rw [if_neg (by simp only [List.isEmpty_iff]; exact hlr0ne),
      if_neg (by simp only [List.isEmpty_iff]; exact hfne),
      if_neg (by simp only [List.isEmpty_iff]; exact hupsne),
      if_neg (not_or.mpr ⟨hw2, hh2⟩),
      if_neg (by simp only [List.isEmpty_iff]; exact hsrinne)]
    simp only [hsr, hff]
  · intro y hy k hk
    exact hmval y hy k hk



/-- C1: whenever both buffers pass validation, both pixel formats are
supported by `sanitize`, and the two buffers have equal dimensions, then: if
width and height are both even the call returns `true` and every pixel
element of the output buffer (row `y`, element `k = x*3 + c`) is written with
the converted sample of the pipeline's final float image (a value determined
by the input alone); and if width or height is odd the call returns `false`. -/
theorem sanitize_shape_contract (input output : CpuImage)
    (hvi : validate_image input = true) (hvo : validate_image output = true)
    (hsi : supported_type input.type = true) (hso : supported_type output.type = true)
    (hweq : input.width = output.width) (hheq : input.height = output.height) :
    (output.width % 2 = 0 ∧ output.height % 2 = 0 →
      (sanitize input output).1 = true ∧
      ∀ y < output.height, ∀ k < output.width * 3,
        (sanitize input output).2 (y * strideElems output + k)
          = convertedSample output.type (sanFinalOf input output.width output.height) y k) ∧
    (¬(output.width % 2 = 0 ∧ output.height % 2 = 0) →
      (sanitize input output).1 = false) := by
  constructor
  · rintro ⟨hwe, hhe⟩
    rcases sanitize_success input output hvi hvo hsi hso hweq hheq hwe hhe with
      ⟨working, srm, m, hto, hsr, hff, hseq, hval⟩
    have hfo : sanFinalOf input output.width output.height
        = sanFinal working output.width output.height srm := by
      unfold sanFinalOf
      simp only [hto, hsr, Option.getD_some]
    rw [hseq]
    exact ⟨rfl, fun y hy k hk => by rw [hfo]; exact hval y hy k hk⟩
  · intro hodd
    rcases validate_image_facts input hvi with ⟨hiw, hih, _, _, _⟩
    unfold sanitize
    rw [if_neg (by push_neg; exact ⟨hvi, hvo⟩), if_neg (by simp [hsi, hso]),
      if_neg (not_or.mpr ⟨hiw, hih⟩), if_neg (by push_neg; exact ⟨hweq, hheq⟩),
      if_pos (by omega)]

theorem c1_sanitize_shape_witness :
    (validate_image ⟨PixelType.F32_RGB, 2, 2, 24, some (fun _ => 0)⟩ = true ∧
      supported_type PixelType.F32_RGB = true) ∧
    (sanitize ⟨PixelType.F32_RGB, 2, 2, 24, some (fun _ => 0)⟩
      ⟨PixelType.F32_RGB, 2, 2, 24, some (fun _ => 0)⟩).1 = true :=
  ⟨⟨by decide, by decide⟩,
   ((sanitize_shape_contract ⟨PixelType.F32_RGB, 2, 2, 24, some (fun _ => 0)⟩
      ⟨PixelType.F32_RGB, 2, 2, 24, some (fun _ => 0)⟩
      (by decide) (by decide) (by decide) (by decide) rfl rfl).1 ⟨rfl, rfl⟩).1⟩

/-- C2: every call of `sanitize` that returns `false` leaves the caller's
output buffer entirely unmodified: the resulting output memory is exactly the
memory the buffer held before the call (the source writes to `output` only in
the final `from_float_image`, whose own failing paths precede any write). -/
theorem sanitize_failure_no_write (input output : CpuImage)
    (h : (sanitize input output).1 = false) :
    (sanitize input output).2 = memOf output := by
  unfold sanitize at h ⊢
  by_cases c1 : ¬ validate_image input ∨ ¬ validate_image output
  · rw [if_pos c1]
  rw [if_neg c1] at h ⊢
  by_cases c2 : ¬ (supported_type input.type ∧ supported_type output.type)
  · rw [if_pos c2]
  rw [if_neg c2] at h ⊢
  by_cases c3 : input.width = 0 ∨ input.height = 0
  · rw [if_pos c3]
  rw [if_neg c3] at h ⊢
  by_cases c4 : input.width ≠ output.width ∨ input.height ≠ output.height
  · rw [if_pos c4]
  rw [if_neg c4] at h ⊢
  by_cases c5 : output.width % 2 ≠ 0 ∨ output.height % 2 ≠ 0
  · rw [if_pos c5]
  rw [if_neg c5] at h ⊢
  rcases hto : to_float_image input with _ | working
  · simp only [hto]
  simp only [hto] at h ⊢
  by_cases g1 : (resample_cubic working (scaled_dimension working.width 0.25)
      (scaled_dimension working.height 0.25)).pixels.isEmpty = true
  · rw [if_pos g1]
  rw [if_neg g1] at h ⊢
  by_cases g2 : (sanFiltered working).pixels.isEmpty = true
  · rw [if_pos g2]
  rw [if_neg g2] at h ⊢
  by_cases g3 : (sanUpscaled working output.width output.height).pixels.isEmpty = true
  · rw [if_pos g3]
  rw [if_neg g3] at h ⊢
  by_cases g4 : output.width / 2 = 0 ∨ output.height / 2 = 0
  · rw [if_pos g4]
  rw [if_neg g4] at h ⊢
  by_cases g5 : (sanSrInput working output.width output.height).pixels.isEmpty = true
  · rw [if_pos g5]
  rw [if_neg g5] at h ⊢
  rcases hsr : sanSrMem working output.width output.height with _ | srm
  · simp only [hsr]
  simp only [hsr] at h ⊢
  rcases hff : from_float_image (sanFinal working output.width output.height srm) output
    with _ | m
  · simp only [hff]
  simp only [hff] at h
  exact absurd h.symm Bool.false_ne_true

theorem c2_no_write_witness :
    (sanitize ⟨PixelType.U8_RGB, 0, 0, 0, none⟩ ⟨PixelType.U8_RGB, 0, 0, 0, none⟩).1
      = false ∧
    (sanitize ⟨PixelType.U8_RGB, 0, 0, 0, none⟩ ⟨PixelType.U8_RGB, 0, 0, 0, none⟩).2
      = memOf ⟨PixelType.U8_RGB, 0, 0, 0, none⟩ := by
  have hf : (sanitize ⟨PixelType.U8_RGB, 0, 0, 0, none⟩
      ⟨PixelType.U8_RGB, 0, 0, 0, none⟩).1 = false := by
    unfold sanitize
    rw [if_pos (Or.inl (by decide))]
  exact ⟨hf, sanitize_failure_no_write _ _ hf⟩

theorem sanitize_true_inversion (input output : CpuImage)
    (h : (sanitize input output).1 = true) :
    ∃ working srm m,
      to_float_image input = some working ∧
      sanSrMem working output.width output.height = some srm ∧
      from_float_image (sanFinal working output.width output.height srm) output = some m := by
  unfold sanitize at h
  by_cases c1 : ¬ validate_image input ∨ ¬ validate_image output
  · rw [if_pos c1] at h
    exact absurd h Bool.false_ne_true
  rw [if_neg c1] at h
  by_cases c2 : ¬ (supported_type input.type ∧ supported_type output.type)
  · rw [if_pos c2] at h
    exact absurd h Bool.false_ne_true
  rw [if_neg c2] at h
  by_cases c3 : input.width = 0 ∨ input.height = 0
  · rw [if_pos c3] at h
    exact absurd h Bool.false_ne_true
  rw [if_neg c3] at h
  by_cases c4 : input.width ≠ output.width ∨ input.height ≠ output.height
  · rw [if_pos c4] at h
    exact absurd h Bool.false_ne_true
  rw [if_neg c4] at h
  by_cases c5 : output.width % 2 ≠ 0 ∨ output.height % 2 ≠ 0
  · rw [if_pos c5] at h
    exact absurd h Bool.false_ne_true
  rw [if_neg c5] at h
  rcases hto : to_float_image input with _ | working
  · simp only [hto] at h
    exact absurd h Bool.false_ne_true
  simp only [hto] at h
  by_cases g1 : (resample_cubic working (scaled_dimension working.width 0.25)
      (scaled_dimension working.height 0.25)).pixels.isEmpty = true
  · rw [if_pos g1] at h
    exact absurd h Bool.false_ne_true
  rw [if_neg g1] at h
  by_cases g2 : (sanFiltered working).pixels.isEmpty = true
  · rw [if_pos g2] at h
    exact absurd h Bool.false_ne_true
  rw [if_neg g2] at h
  by_cases g3 : (sanUpscaled working output.width output.height).pixels.isEmpty = true
  · rw [if_pos g3] at h
    exact absurd h Bool.false_ne_true
  rw [if_neg g3] at h
  by_cases g4 : output.width / 2 = 0 ∨ output.height / 2 = 0
  · rw [if_pos g4] at h
    exact absurd h Bool.false_ne_true
  rw [if_neg g4] at h
  by_cases g5 : (sanSrInput working output.width output.height).pixels.isEmpty = true
  · rw [if_pos g5] at h
    exact absurd h Bool.false_ne_true
  rw [if_neg g5] at h
  rcases hsr : sanSrMem working output.width output.height with _ | srm
  · simp only [hsr] at h
    exact absurd h Bool.false_ne_true
  simp only [hsr] at h
  rcases hff : from_float_image (sanFinal working output.width output.height srm) output
    with _ | m
  · simp only [hff] at h
    exact absurd h Bool.false_ne_true
  exact ⟨working, srm, m, rfl, hsr, hff⟩

theorem sanFinal_pixels (working : Image) (W H : ℕ) (srm : ℕ → ℝ) :
    ∀ i < W * H * 3,
      (sanFinal working W H srm).pixels.getD i 0
        = sanitize_pixel (0.15 * srm i + 0.35 * (sanUpscaled working W H).pixels.getD i 0 +
            0.50 * working.pixels.getD i 0) := by
  intro i hi
  unfold sanFinal
  rw [List.getD_eq_getElem _ _ (by simpa using hi), List.getElem_ofFn]
  have hc : (1 : ℝ) - 0.15 - 0.35 = 0.50 := by norm_num
  rw [hc]

/-- C3: on every successful `sanitize` call, each sample of the final float
image handed to the output-format conversion equals
`clamp(0.15 * B + 0.35 * A + 0.50 * O, 0, 1)` where `B` is the SR-path
output sample, `A` the direct cubic-upscale sample, and `O` the canonical
float form of the original input, at the same position. -/
theorem sanitize_final_blend (input output : CpuImage)
    (h : (sanitize input output).1 = true) :
    ∃ working srm,
      to_float_image input = some working ∧
      sanSrMem working output.width output.height = some srm ∧
      (from_float_image (sanFinal working output.width output.height srm) output).isSome
        = true ∧
      ∀ i < output.width * output.height * 3,
        (sanFinal working output.width output.height srm).pixels.getD i 0
          = sanitize_pixel (0.15 * srm i +
              0.35 * (sanUpscaled working output.width output.height).pixels.getD i 0 +
              0.50 * working.pixels.getD i 0) := by
  rcases sanitize_true_inversion input output h with ⟨working, srm, m, hto, hsr, hff⟩
  exact ⟨working, srm, hto, hsr, by rw [hff]; rfl,
    sanFinal_pixels working output.width output.height srm⟩

theorem c3_final_blend_witness :
    (sanitize ⟨PixelType.F32_RGB, 2, 2, 24, some (fun _ => 0)⟩
      ⟨PixelType.F32_RGB, 2, 2, 24, some (fun _ => 0)⟩).1 = true ∧
    ∃ working srm,
      to_float_image ⟨PixelType.F32_RGB, 2, 2, 24, some (fun _ => 0)⟩ = some working ∧
      sanSrMem working 2 2 = some srm ∧
      (from_float_image (sanFinal working 2 2 srm)
        ⟨PixelType.F32_RGB, 2, 2, 24, some (fun _ => 0)⟩).isSome = true ∧
      ∀ i < 2 * 2 * 3,
        (sanFinal working 2 2 srm).pixels.getD i 0
          = sanitize_pixel (0.15 * srm i + 0.35 * (sanUpscaled working 2 2).pixels.getD i 0 +
              0.50 * working.pixels.getD i 0) := by
  rcases sanitize_success ⟨PixelType.F32_RGB, 2, 2, 24, some (fun _ => 0)⟩
      ⟨PixelType.F32_RGB, 2, 2, 24, some (fun _ => 0)⟩
      (by decide) (by decide) (by decide) (by decide) rfl rfl rfl rfl with
    ⟨w0, s0, m0, _, _, _, hseq, _⟩
  have h1 : (sanitize ⟨PixelType.F32_RGB, 2, 2, 24, some (fun _ => 0)⟩
      ⟨PixelType.F32_RGB, 2, 2, 24, some (fun _ => 0)⟩).1 = true := by rw [hseq]
  exact ⟨h1, sanitize_final_blend _ _ h1⟩

/-- C10: `sanitize` returns `false` whenever either buffer has pixel type
`U8_RGBA`, regardless of dimensions or contents: 8-bit RGBA is one of the
three `PixelType`s (and `sr_lite_refine` accepts it), but the `sanitize`
entry point supports only `U8_RGB` and `F32_RGB`. -/
theorem sanitize_rejects_u8_rgba (input output : CpuImage)
    (h : input.type = PixelType.U8_RGBA ∨ output.type = PixelType.U8_RGBA) :
    (sanitize input output).1 = false := by
  unfold sanitize
  by_cases h1 : ¬ validate_image input ∨ ¬ validate_image output
  · rw [if_pos h1]
  · rw [if_neg h1]
    have h2 : ¬(supported_type input.type = true ∧ supported_type output.type = true) := by
      rintro ⟨ha, hb⟩
      rcases h with h | h
      · rw [h] at ha
        exact absurd ha (by decide)
      · rw [h] at hb
        exact absurd hb (by decide)
    rw [if_pos h2]

theorem c10_rgba_witness :
    ((⟨PixelType.U8_RGBA, 2, 2, 8, some (fun _ => 0)⟩ : CpuImage).type = PixelType.U8_RGBA ∨
      (⟨PixelType.F32_RGB, 2, 2, 24, some (fun _ => 0)⟩ : CpuImage).type
        = PixelType.U8_RGBA) ∧
    (sanitize ⟨PixelType.U8_RGBA, 2, 2, 8, some (fun _ => 0)⟩
      ⟨PixelType.F32_RGB, 2, 2, 24, some (fun _ => 0)⟩).1 = false :=
  ⟨Or.inl rfl, sanitize_rejects_u8_rgba _ _ (Or.inl rfl)⟩


end Pixmask
